import Mathlib

/- Verification of the core data transforms of the crash-visualization app.

   The embedded components are the aggregation pipeline (src/pages/index.js,
   getStaticProps), the stacked-series builder and its category ordering
   (StackedAreaChart), the treemap layout engine (Treemap), the interaction
   controller (tooltip placement, decade hover intervals) and the color scale
   mapper.  JavaScript arrays become Lean lists, JS numbers become ℚ for
   geometry and ℕ/ℤ for counts and years.  d3 library primitives that the
   source calls but whose code is not part of this repository (d3.treemap,
   d3.stack, d3.range, d3.scaleSequential, d3.hierarchy.sum/sort) are
   modelled from the specification, as marked in their doc comments. -/

namespace Crash

/-! Generic list utilities mirroring lodash operations. -/

/-- `_.uniq` helper: drop elements already seen, keeping first occurrences. -/
def uniqAux {α : Type} [DecidableEq α] (seen : List α) : List α → List α
  | [] => []
  | x :: xs => if x ∈ seen then uniqAux seen xs else x :: uniqAux (x :: seen) xs

/-- lodash `_.uniq`: first occurrence of each element, in first-seen order
    (used for `causes` in getStaticProps and for object keys of `_.groupBy`,
    which JS iterates in insertion = first-seen order for string keys). -/
def uniqFirst {α : Type} [DecidableEq α] (l : List α) : List α := uniqAux [] l

theorem mem_uniqAux {α : Type} [DecidableEq α] (l : List α) :
    ∀ (seen : List α) (a : α), a ∈ uniqAux seen l ↔ a ∈ l ∧ a ∉ seen := by
  induction l with
  | nil => intro seen a; simp [uniqAux]
  | cons x xs ih =>
    intro seen a
    by_cases hx : x ∈ seen
    · rw [uniqAux, if_pos hx, ih]
      constructor
      · rintro ⟨h1, h2⟩; exact ⟨List.mem_cons_of_mem _ h1, h2⟩
      · rintro ⟨h1, h2⟩
        rcases List.mem_cons.mp h1 with h1 | h1
        · subst h1; exact absurd hx h2
        · exact ⟨h1, h2⟩
    · rw [uniqAux, if_neg hx]
      by_cases hax : a = x
      · subst hax; simp [hx]
      · simp [List.mem_cons, ih, hax]

theorem mem_uniqFirst {α : Type} [DecidableEq α] (l : List α) (a : α) :
    a ∈ uniqFirst l ↔ a ∈ l := by
  rw [uniqFirst, mem_uniqAux]; simp

theorem nodup_uniqAux {α : Type} [DecidableEq α] (l : List α) :
    ∀ seen : List α, (uniqAux seen l).Nodup := by
  induction l with
  | nil => intro seen; simp [uniqAux]
  | cons x xs ih =>
    intro seen
    by_cases hx : x ∈ seen
    · rw [uniqAux, if_pos hx]; exact ih seen
    · rw [uniqAux, if_neg hx]
      refine List.nodup_cons.mpr ⟨?_, ih (x :: seen)⟩
      intro hmem
      exact ((mem_uniqAux xs (x :: seen) x).mp hmem).2 (List.mem_cons_self x seen)

theorem nodup_uniqFirst {α : Type} [DecidableEq α] (l : List α) :
    (uniqFirst l).Nodup := nodup_uniqAux l []

/-- Sum over a key list of an indicator for one key equals the count of that
    key in the list. -/
theorem sum_map_ite_count {β : Type} [DecidableEq β] (ks : List β) (b : β) (f : β → ℕ) :
    (ks.map (fun k => (if b = k then 1 else 0) + f k)).sum
      = ks.count b + (ks.map f).sum := by
  induction ks with
  | nil => simp
  | cons k ks ih =>
    simp only [List.map_cons, List.sum_cons, ih, List.count_cons]
    by_cases h : b = k
    · subst h; simp; omega
    · have h' : ¬ (k = b) := fun hh => h hh.symm
      simp [h, h']; omega

/-- Partition principle behind every `_.groupBy`-then-sum in the source:
    summing, over a duplicate-free list of keys covering a list `l`, the
    sizes of the fibers of `key` gives the length of `l`. -/
theorem sum_fiber_lengths {α β : Type} [DecidableEq β] (key : α → β) (ks : List β)
    (hnd : ks.Nodup) :
    ∀ l : List α, (∀ x ∈ l, key x ∈ ks) →
      (ks.map (fun k => (l.filter (fun x => decide (key x = k))).length)).sum = l.length := by
  intro l
  induction l with
  | nil =>
    intro _
    have : ∀ ks' : List β, (ks'.map (fun _ => (0 : ℕ))).sum = 0 := by
      intro ks'; induction ks' <;> simp [*]
    simp only [List.filter_nil, List.length_nil]
    exact this ks
  | cons x l ih =>
    intro hcov
    have hx : key x ∈ ks := hcov x (List.mem_cons_self x l)
    have hcov' : ∀ y ∈ l, key y ∈ ks := fun y hy => hcov y (List.mem_cons_of_mem x hy)
    have hstep : ∀ k : β, ((x :: l).filter (fun y => decide (key y = k))).length
        = (if key x = k then 1 else 0) + (l.filter (fun y => decide (key y = k))).length := by
      intro k
      by_cases h : key x = k
      · simp [List.filter_cons, h]; omega
      · simp [List.filter_cons, h]
    calc (ks.map (fun k => ((x :: l).filter (fun y => decide (key y = k))).length)).sum
        = (ks.map (fun k => (if key x = k then 1 else 0)
            + (l.filter (fun y => decide (key y = k))).length)).sum := by
          congr 1; exact List.map_congr_left (fun k _ => hstep k)
      _ = ks.count (key x) + (ks.map (fun k => (l.filter (fun y => decide (key y = k))).length)).sum :=
          sum_map_ite_count ks (key x) _
      _ = 1 + l.length := by rw [List.count_eq_one_of_mem hnd hx, ih hcov']
      _ = (x :: l).length := by simp [Nat.add_comm]

/-! Stable sorting.  JS `Array.prototype.sort` is stable (ES2019), so a sort
    with comparator `(a, b) => b.key - a.key` is the stable
    descending-by-key sort; we model it with `List.insertionSort` on the
    relation `fun a b => key b ≤ key a` and prove the stability law that
    pins the result down uniquely. -/

/-- Stability of the modelled JS sort: the elements having any fixed key
    appear in the sorted output exactly in their original order. -/
theorem insertionSort_filter_key {α : Type} (key : α → ℕ) (l : List α) (k : ℕ) :
    ((List.insertionSort (fun a b => key b ≤ key a) l).filter (fun x => decide (key x = k)))
      = l.filter (fun x => decide (key x = k)) := by
  have hins : ∀ (a : α) (s : List α),
      ((List.orderedInsert (fun a b => key b ≤ key a) a s).filter (fun x => decide (key x = k)))
        = if key a = k then a :: s.filter (fun x => decide (key x = k))
          else s.filter (fun x => decide (key x = k)) := by
    intro a s
    induction s with
    | nil => by_cases h : key a = k <;> simp [List.orderedInsert, h]
    | cons b s ihs =>
      rw [List.orderedInsert]
      by_cases hr : key b ≤ key a
      · rw [if_pos hr]
        by_cases h : key a = k <;> simp [List.filter_cons, h]
      · rw [if_neg hr]
        have hbk : key a < key b := lt_of_not_le hr
        by_cases h : key a = k
        · have hb : ¬ (key b = k) := by omega
          simp [List.filter_cons, hb, ihs, h]
        · by_cases hb : key b = k <;> simp [List.filter_cons, hb, ihs, h]
  induction l with
  | nil => simp
  | cons a l ih =>
    rw [List.insertionSort, hins a]
    by_cases h : key a = k <;> simp [List.filter_cons, h, ih]

/-! Aggregation pipeline (src/pages/index.js, getStaticProps).  Records are
    the cleaned rows: `{ year, cause, location, fatalities, survivors }` with
    `survivors` the string `"Yes"` or `"No"` produced by the cleaning step. -/

structure Record where
  year : Int
  cause : String
  location : String
  fatalities : ℕ
  survivors : String
deriving DecidableEq, Repr

/-- `causes = _.uniq(cleanedData.map(row => row.cause))` (first-seen order). -/
def causesOf (rs : List Record) : List String := uniqFirst (rs.map (·.cause))

/-- The distinct years of the data in ascending order: `_.groupBy('year')`
    produces one group per distinct year (JS iterates integer-like keys in
    ascending order, and StackedAreaChart re-sorts by year ascending). -/
def yearsOf (rs : List Record) : List Int :=
  List.insertionSort (fun a b => a ≤ b) (uniqFirst (rs.map (·.year)))

/-- Number of records of cause `c` in year `y` (the `causeCounts` entry:
    group length when the cause occurs that year, else the 0 default). -/
def countAt (rs : List Record) (c : String) (y : Int) : ℕ :=
  (rs.filter (fun r => decide (r.cause = c ∧ r.year = y))).length

/-- One element of `stackedAreaData`: a year together with the per-cause
    counts object (`{ year, ...causeCounts }`), keyed by every cause. -/
structure StackPoint where
  year : Int
  counts : List (String × ℕ)
deriving DecidableEq, Repr

/-- `{ year: parseInt(year, 10), ...causeCounts }` for one year group. -/
def pointFor (rs : List Record) (cs : List String) (y : Int) : StackPoint :=
  ⟨y, cs.map (fun c => (c, countAt rs c y))⟩

/-- `stackedAreaData` from getStaticProps: one point per distinct year. -/
def stackedAreaData (rs : List Record) : List StackPoint :=
  (yearsOf rs).map (pointFor rs (causesOf rs))

/-- The JS property read `d[cause] || 0`: look the cause up in the counts
    object, defaulting to 0 when the key is missing. -/
def lookupCount (pt : StackPoint) (c : String) : ℕ :=
  ((pt.counts.find? (fun q => decide (q.1 = c))).map (·.2)).getD 0

/-! Category ordering (StackedAreaChart): causes sorted by total crashes,
    largest to smallest, with JS stable sort; the resulting `sortedCauses`
    is used both as the stack keys and as the legend order. -/

/-- `_.sumBy(data, d => d[cause] || 0)`. -/
def totalFor (pts : List StackPoint) (c : String) : ℕ :=
  (pts.map (fun pt => lookupCount pt c)).sum

/-- `causeTotals = causes.map(cause => ({cause, total}))`, before sorting. -/
def causeTotals (pts : List StackPoint) (cs : List String) : List (String × ℕ) :=
  cs.map (fun c => (c, totalFor pts c))

/-- `causeTotals.sort((a, b) => b.total - a.total)`: stable sort, total
    descending. -/
def sortedCauseTotals (pts : List StackPoint) (cs : List String) : List (String × ℕ) :=
  List.insertionSort (fun a b => b.2 ≤ a.2) (causeTotals pts cs)

/-- `sortedCauses = causeTotals.map(d => d.cause)` after sorting. -/
def sortedCauses (pts : List StackPoint) (cs : List String) : List String :=
  (sortedCauseTotals pts cs).map (·.1)

/-- The key order handed to `d3.stack().keys(sortedCauses)`. -/
def stackKeys (pts : List StackPoint) (cs : List String) : List String :=
  sortedCauses pts cs

/-- The order in which the legend draws its swatches
    (`sortedCauses.forEach((cause, i) => ...)`). -/
def legendCategories (pts : List StackPoint) (cs : List String) : List String :=
  sortedCauses pts cs

/-- Looking a cause up in the counts object built by `pointFor` returns the
    `countAt` figure, for any cause in the key list. -/
theorem lookupCount_pointFor (rs : List Record) (cs : List String) (y : Int)
    (c : String) (hc : c ∈ cs) :
    lookupCount (pointFor rs cs y) c = countAt rs c y := by
  induction cs with
  | nil => cases hc
  | cons c' cs ih =>
    by_cases h : c' = c
    · subst h
      simp [lookupCount, pointFor, List.find?_cons]
    · rcases List.mem_cons.mp hc with hcc | hcc
      · exact absurd hcc.symm h
      · have : lookupCount (pointFor rs cs y) c = countAt rs c y := ih hcc
        simpa [lookupCount, pointFor, List.find?_cons, h] using this

/-- The total used by the sort comparator is the overall number of records
    with that cause. -/
theorem totalFor_stackedAreaData (rs : List Record) (c : String)
    (hc : c ∈ causesOf rs) :
    totalFor (stackedAreaData rs) c = (rs.filter (fun r => decide (r.cause = c))).length := by
  have hnd : (yearsOf rs).Nodup :=
    ((List.perm_insertionSort _ _).nodup_iff).mpr (nodup_uniqFirst _)
  have hcov : ∀ x ∈ rs.filter (fun r => decide (r.cause = c)), x.year ∈ yearsOf rs := by
    intro x hx
    have hxr : x ∈ rs := (List.mem_filter.mp hx).1
    have : x.year ∈ uniqFirst (rs.map (·.year)) :=
      (mem_uniqFirst _ _).mpr (List.mem_map.mpr ⟨x, hxr, rfl⟩)
    exact ((List.perm_insertionSort _ _).mem_iff).mpr this
  have hpart := sum_fiber_lengths (fun r : Record => r.year) (yearsOf rs) hnd
    (rs.filter (fun r => decide (r.cause = c))) hcov
  calc totalFor (stackedAreaData rs) c
      = ((yearsOf rs).map (fun y => lookupCount (pointFor rs (causesOf rs) y) c)).sum := by
        simp [totalFor, stackedAreaData, List.map_map]; rfl
    _ = ((yearsOf rs).map (fun y => countAt rs c y)).sum := by
        congr 1
        exact List.map_congr_left (fun y _ => lookupCount_pointFor rs _ y c hc)
    _ = ((yearsOf rs).map (fun y =>
          ((rs.filter (fun r => decide (r.cause = c))).filter
            (fun r => decide (r.year = y))).length)).sum := by
        congr 1
        refine List.map_congr_left (fun y _ => ?_)
        rw [countAt, List.filter_filter]
        congr 1
        refine List.filter_congr (fun r _ => ?_)
        by_cases h1 : r.cause = c <;> by_cases h2 : r.year = y <;> simp [h1, h2]
    _ = (rs.filter (fun r => decide (r.cause = c))).length := hpart

/-- C4: the category order used for both the stacked bands and the legend is
    one single order: causes sorted by total count descending (totals being
    the overall per-cause record counts), ties broken by first-seen order in
    the input (stability: for each total, the causes with that total appear
    exactly in their `causes`-list order, which is first-seen order), the
    sorted list being a permutation of the cause list; the stack-key order
    and the legend order are literally the same list, and the order is
    stable across repeated calls since it is a pure function of the input. -/
theorem category_order_single_and_stable (rs : List Record) :
    (∀ c ∈ causesOf rs,
        totalFor (stackedAreaData rs) c = (rs.filter (fun r => decide (r.cause = c))).length) ∧
    List.Sorted (fun a b : String × ℕ => b.2 ≤ a.2)
        (sortedCauseTotals (stackedAreaData rs) (causesOf rs)) ∧
    (∀ k : ℕ,
        (sortedCauseTotals (stackedAreaData rs) (causesOf rs)).filter
            (fun x => decide (x.2 = k))
          = (causeTotals (stackedAreaData rs) (causesOf rs)).filter
            (fun x => decide (x.2 = k))) ∧
    (sortedCauseTotals (stackedAreaData rs) (causesOf rs)).Perm
        (causeTotals (stackedAreaData rs) (causesOf rs)) ∧
    stackKeys (stackedAreaData rs) (causesOf rs)
      = legendCategories (stackedAreaData rs) (causesOf rs) := by
  refine ⟨fun c hc => totalFor_stackedAreaData rs c hc, ?_, ?_, ?_, rfl⟩
  · haveI ht : IsTotal (String × ℕ) (fun a b => b.2 ≤ a.2) :=
      ⟨fun a b => le_total b.2 a.2⟩
    haveI htr : IsTrans (String × ℕ) (fun a b => b.2 ≤ a.2) :=
      ⟨fun _ _ _ h1 h2 => le_trans h2 h1⟩
    exact List.sorted_insertionSort _ _
  · intro k
    exact insertionSort_filter_key (fun x : String × ℕ => x.2) _ k
  · exact List.perm_insertionSort _ _

/-- Witness for C4 on the end-to-end scenario of the spec: two records, one
    of cause "A" and one of cause "B". -/
theorem category_order_single_and_stable_witness :
    ((⟨2000, "A", "X", 5, "No"⟩ : Record) ∈
        ([⟨2000, "A", "X", 5, "No"⟩, ⟨2000, "B", "Y", 0, "Yes"⟩] : List Record)) ∧
    ("A" ∈ causesOf [⟨2000, "A", "X", 5, "No"⟩, ⟨2000, "B", "Y", 0, "Yes"⟩] ∧
      totalFor (stackedAreaData [⟨2000, "A", "X", 5, "No"⟩, ⟨2000, "B", "Y", 0, "Yes"⟩]) "A"
        = (([⟨2000, "A", "X", 5, "No"⟩, ⟨2000, "B", "Y", 0, "Yes"⟩] : List Record).filter
            (fun r => decide (r.cause = "A"))).length) := by
  refine ⟨by decide, by decide, ?_⟩
  exact (category_order_single_and_stable
    [⟨2000, "A", "X", 5, "No"⟩, ⟨2000, "B", "Y", 0, "Yes"⟩]).1 "A" (by decide)

/-! Stacked-series builder.  Modelled from the spec: `d3.stack()` with the
    default none order and none offset is not part of this repository; per
    x-value it walks the key list accumulating `y0_k = y1_(k-1)` starting at
    0 and `y1_k = y0_k + count`, using 0 for missing keys (the `d[key]`
    lookup is `lookupCount`). -/

structure Band where
  category : String
  y0 : ℕ
  y1 : ℕ
deriving DecidableEq, Repr

/-- Modelled from the spec: the cumulative walk of `d3.stack` over the key
    list at one point, carrying the running baseline `acc`. -/
def bandsAux (pt : StackPoint) (acc : ℕ) : List String → List Band
  | [] => []
  | c :: cs => ⟨c, acc, acc + lookupCount pt c⟩ :: bandsAux pt (acc + lookupCount pt c) cs

/-- Modelled from the spec: the bands of one stacked-series point, in key
    order, starting from baseline 0. -/
def bandsAt (order : List String) (pt : StackPoint) : List Band := bandsAux pt 0 order

theorem bandsAux_categories (pt : StackPoint) :
    ∀ (order : List String) (acc : ℕ), (bandsAux pt acc order).map Band.category = order := by
  intro order
  induction order with
  | nil => intro acc; rfl
  | cons c cs ih => intro acc; simp [bandsAux, ih]

theorem bandsAux_chain (pt : StackPoint) :
    ∀ (order : List String) (acc : ℕ),
      List.Chain' (fun a b => a.y1 = b.y0) (bandsAux pt acc order) := by
  intro order
  induction order with
  | nil => intro acc; simp [bandsAux]
  | cons c cs ih =>
    intro acc
    cases cs with
    | nil => simp [bandsAux]
    | cons c' cs' =>
      refine List.chain'_cons.mpr ⟨rfl, ih (acc + lookupCount pt c)⟩

theorem bandsAux_getLast (pt : StackPoint) :
    ∀ (order : List String) (acc : ℕ) (b : Band),
      (bandsAux pt acc order).getLast? = some b →
        b.y1 = acc + (order.map (lookupCount pt)).sum := by
  intro order
  induction order with
  | nil => intro acc b h; simp [bandsAux] at h
  | cons c cs ih =>
    intro acc b h
    cases cs with
    | nil =>
      simp only [bandsAux, List.getLast?_singleton, Option.some.injEq] at h
      subst h; simp
    | cons c' cs' =>
      have hstep : (bandsAux pt acc (c :: c' :: cs')).getLast?
          = (bandsAux pt (acc + lookupCount pt c) (c' :: cs')).getLast? := by
        conv_lhs => rw [bandsAux]
        conv_lhs => rw [bandsAux]
        conv_rhs => rw [bandsAux]
        exact List.getLast?_cons_cons
      have htail := ih (acc + lookupCount pt c) b (by rw [← hstep]; exact h)
      simp only [List.map_cons, List.sum_cons] at htail ⊢
      omega

/-- C3: at every x-value the bands walk the category order cumulatively:
    the band categories are exactly the key order, the first band starts at
    0, each band's y1 is the next band's y0, the last band's y1 is the sum
    of the counts of all categories of the order (missing categories
    counting as 0 through the `d[key] || 0` lookup); and on the real
    pipeline, where the order is `sortedCauses` over all causes of the
    data, the last band's y1 is exactly the number of records of that
    year. -/
theorem stack_bands_cumulative (order : List String) (pt : StackPoint) :
    ((bandsAt order pt).map Band.category = order) ∧
    (∀ b : Band, (bandsAt order pt).head? = some b → b.y0 = 0) ∧
    List.Chain' (fun a b => a.y1 = b.y0) (bandsAt order pt) ∧
    (∀ b : Band, (bandsAt order pt).getLast? = some b →
        b.y1 = (order.map (lookupCount pt)).sum) ∧
    (∀ (rs : List Record) (y : Int) (b : Band),
        order = sortedCauses (stackedAreaData rs) (causesOf rs) →
        pt = pointFor rs (causesOf rs) y →
        (bandsAt order pt).getLast? = some b →
        b.y1 = (rs.filter (fun r => decide (r.year = y))).length) := by
  refine ⟨bandsAux_categories pt order 0, ?_, bandsAux_chain pt order 0, ?_, ?_⟩
  · intro b hb
    cases order with
    | nil => simp [bandsAt, bandsAux] at hb
    | cons c cs =>
      simp only [bandsAt, bandsAux, List.head?_cons, Option.some.injEq] at hb
      subst hb; rfl
  · intro b hb
    simpa using bandsAux_getLast pt order 0 b hb
  · intro rs y b horder hpt hb
    have hlast := bandsAux_getLast pt order 0 b hb
    subst horder hpt
    have hperm : (sortedCauses (stackedAreaData rs) (causesOf rs)).Perm (causesOf rs) := by
      have h1 := (List.perm_insertionSort (fun a b : String × ℕ => b.2 ≤ a.2)
        (causeTotals (stackedAreaData rs) (causesOf rs))).map (·.1)
      have h2 : (causeTotals (stackedAreaData rs) (causesOf rs)).map (·.1) = causesOf rs := by
        simp only [causeTotals, List.map_map]
        exact List.map_id _
      have h3 : ((causeTotals (stackedAreaData rs) (causesOf rs)).map (·.1)).Perm
          (causesOf rs) := by rw [h2]
      exact h1.trans h3
    have hsum : ((sortedCauses (stackedAreaData rs) (causesOf rs)).map
        (lookupCount (pointFor rs (causesOf rs) y))).sum
        = ((causesOf rs).map (lookupCount (pointFor rs (causesOf rs) y))).sum :=
      (hperm.map _).sum_eq
    have hcount : ((causesOf rs).map (lookupCount (pointFor rs (causesOf rs) y))).sum
        = (rs.filter (fun r => decide (r.year = y))).length := by
      have hnd : (causesOf rs).Nodup := nodup_uniqFirst _
      have hcov : ∀ x ∈ rs.filter (fun r => decide (r.year = y)), x.cause ∈ causesOf rs := by
        intro x hx
        exact (mem_uniqFirst _ _).mpr
          (List.mem_map.mpr ⟨x, (List.mem_filter.mp hx).1, rfl⟩)
      have hpart := sum_fiber_lengths (fun r : Record => r.cause) (causesOf rs) hnd
        (rs.filter (fun r => decide (r.year = y))) hcov
      rw [← hpart]
      congr 1
      refine List.map_congr_left (fun c hcmem => ?_)
      rw [lookupCount_pointFor rs _ y c hcmem, countAt, List.filter_filter]
      congr 1
      refine List.filter_congr (fun r _ => ?_)
      by_cases h1 : r.cause = c <;> by_cases h2 : r.year = y <;> simp [h1, h2]
    rw [hlast, Nat.zero_add, hsum, hcount]

/-- Witness for C3 on the end-to-end scenario of the spec: one point for
    year 2000 with bands A at 0-1 then B at 1-2, and last y1 = 2 = the
    number of year-2000 records. -/
theorem stack_bands_cumulative_witness :
    ((bandsAt
        (sortedCauses (stackedAreaData [⟨2000, "A", "X", 5, "No"⟩, ⟨2000, "B", "Y", 0, "Yes"⟩])
          (causesOf [⟨2000, "A", "X", 5, "No"⟩, ⟨2000, "B", "Y", 0, "Yes"⟩]))
        (pointFor [⟨2000, "A", "X", 5, "No"⟩, ⟨2000, "B", "Y", 0, "Yes"⟩]
          (causesOf [⟨2000, "A", "X", 5, "No"⟩, ⟨2000, "B", "Y", 0, "Yes"⟩]) 2000)).getLast?
      = some ⟨"B", 1, 2⟩) ∧
    (⟨"B", 1, 2⟩ : Band).y1
      = (([⟨2000, "A", "X", 5, "No"⟩, ⟨2000, "B", "Y", 0, "Yes"⟩] : List Record).filter
          (fun r => decide (r.year = 2000))).length := by
  refine ⟨by decide, ?_⟩
  exact (stack_bands_cumulative _ _).2.2.2.2
    [⟨2000, "A", "X", 5, "No"⟩, ⟨2000, "B", "Y", 0, "Yes"⟩] 2000 ⟨"B", 1, 2⟩ rfl rfl (by decide)

/-! Hierarchies.  `HTree` is the input hierarchy shape consumed by
    `d3.hierarchy`: a name, the leaf payload (`crashes`, `fatalities`; both 0
    on internal nodes, which the source builds without those fields), and an
    ordered list of children (empty for leaves). -/

inductive HTree where
  | mk (name : String) (crashes : ℕ) (fatalities : ℕ) (children : List HTree)
deriving Repr

def HTree.name : HTree → String
  | .mk n _ _ _ => n

def HTree.crashes : HTree → ℕ
  | .mk _ c _ _ => c

def HTree.fatalities : HTree → ℕ
  | .mk _ _ f _ => f

def HTree.children : HTree → List HTree
  | .mk _ _ _ cs => cs

/-- Induction over `HTree` with the hypothesis available for every child. -/
theorem HTree.indOn {P : HTree → Prop}
    (h : ∀ n c f cs, (∀ t ∈ cs, P t) → P (HTree.mk n c f cs)) : ∀ t, P t := by
  intro t
  generalize hs : sizeOf t = m
  induction m using Nat.strong_induction_on generalizing t with
  | _ m ih =>
    cases t with
    | mk n c f cs =>
      refine h n c f cs (fun x hx => ?_)
      refine ih (sizeOf x) ?_ x rfl
      have hlt : sizeOf x < sizeOf cs := List.sizeOf_lt_of_mem hx
      subst hs
      simp only [HTree.mk.sizeOf_spec]
      omega

mutual
/-- Number of records aggregated in the leaves below a node: a leaf carries
    its own `crashes` count, an internal node the total of its children. -/
def sumLeafCrashes : HTree → ℕ
  | .mk _ c _ [] => c
  | .mk _ _ _ (t :: ts) => sumLeafCrashesF (t :: ts)
def sumLeafCrashesF : List HTree → ℕ
  | [] => 0
  | t :: ts => sumLeafCrashes t + sumLeafCrashesF ts
end

theorem sumLeafCrashesF_eq (l : List HTree) :
    sumLeafCrashesF l = (l.map sumLeafCrashes).sum := by
  induction l with
  | nil => rfl
  | cons t ts ih => simp [sumLeafCrashesF, ih]

/-! `buildDetailHierarchy` (src/pages/index.js, lines 75-95 wrapped by Home
    at lines 115-120, 158-169): `treemapInteractiveData` groups the records
    of one cause by location, each location by survivors; the key is absent
    exactly when no record has that cause, which Home surfaces as the
    "No location data available" empty state; otherwise the treemap data is
    `{ name: 'Root', children: locations }`. -/

/-- One survivors bucket: `{ name: survivors, crashes: group.length,
    fatalities: _.sumBy(group, 'fatalities') }`. -/
def survivorLeaves (grp : List Record) : List HTree :=
  (uniqFirst (grp.map (·.survivors))).map (fun s =>
    HTree.mk s ((grp.filter (fun r => decide (r.survivors = s))).length)
      (((grp.filter (fun r => decide (r.survivors = s))).map (·.fatalities)).sum) [])

/-- One location node: the records of one location split into survivors
    buckets. -/
def locationNodes (grp : List Record) : List HTree :=
  (uniqFirst (grp.map (·.location))).map (fun loc =>
    HTree.mk loc 0 0 (survivorLeaves (grp.filter (fun r => decide (r.location = loc)))))

/-- `buildDetailHierarchy`: NotFound (`none`) exactly when no record matches
    the cause (the `treemapInteractiveData[selectedCause]` lookup misses);
    otherwise the root → location → survivors hierarchy used for the detail
    treemap. -/
def buildDetailHierarchy (rs : List Record) (cause : String) : Option HTree :=
  let grp := rs.filter (fun r => decide (r.cause = cause))
  if grp.isEmpty then none
  else some (HTree.mk "Root" 0 0 (locationNodes grp))

/-- The survivors buckets of a record group partition it. -/
theorem sumLeafCrashes_survivorLeaves (grp : List Record) :
    ((survivorLeaves grp).map sumLeafCrashes).sum = grp.length := by
  have hpart := sum_fiber_lengths (fun r : Record => r.survivors)
    (uniqFirst (grp.map (·.survivors))) (nodup_uniqFirst _) grp
    (fun x hx => (mem_uniqFirst _ _).mpr (List.mem_map.mpr ⟨x, hx, rfl⟩))
  rw [← hpart, survivorLeaves, List.map_map]
  congr 1

/-- The location nodes of a record group partition it. -/
theorem sumLeafCrashes_locationNodes (grp : List Record) :
    ((locationNodes grp).map sumLeafCrashes).sum = grp.length := by
  have hpart := sum_fiber_lengths (fun r : Record => r.location)
    (uniqFirst (grp.map (·.location))) (nodup_uniqFirst _) grp
    (fun x hx => (mem_uniqFirst _ _).mpr (List.mem_map.mpr ⟨x, hx, rfl⟩))
  rw [← hpart, locationNodes, List.map_map]
  refine congrArg List.sum (List.map_congr_left (fun loc _ => ?_))
  show sumLeafCrashes
      (HTree.mk loc 0 0 (survivorLeaves (grp.filter (fun r => decide (r.location = loc)))))
    = (grp.filter (fun x => decide (x.location = loc))).length
  set sub := grp.filter (fun r => decide (r.location = loc)) with hsub
  cases hsl : survivorLeaves sub with
  | nil =>
    have : ((survivorLeaves sub).map sumLeafCrashes).sum = sub.length :=
      sumLeafCrashes_survivorLeaves sub
    rw [hsl] at this
    simp only [List.map_nil, List.sum_nil] at this
    rw [sumLeafCrashes, ← this]
  | cons t ts =>
    have : ((survivorLeaves sub).map sumLeafCrashes).sum = sub.length :=
      sumLeafCrashes_survivorLeaves sub
    rw [hsl] at this
    rw [sumLeafCrashes, sumLeafCrashesF_eq, this]

/-- C5: `buildDetailHierarchy` returns NotFound exactly when zero records
    match the requested cause (an informational empty state, not a crash);
    with N > 0 matching records it returns a hierarchy whose leaf counts
    sum to exactly N. -/
theorem buildDetailHierarchy_spec (rs : List Record) (cause : String) :
    (buildDetailHierarchy rs cause = none
        ↔ (rs.filter (fun r => decide (r.cause = cause))).length = 0) ∧
    (∀ h : HTree, buildDetailHierarchy rs cause = some h →
        sumLeafCrashes h = (rs.filter (fun r => decide (r.cause = cause))).length) := by
  cases hgrp : rs.filter (fun r => decide (r.cause = cause)) with
  | nil =>
    constructor
    · rw [buildDetailHierarchy, hgrp]; simp
    · intro h hsome
      rw [buildDetailHierarchy, hgrp] at hsome
      simp at hsome
  | cons r rest =>
    constructor
    · rw [buildDetailHierarchy, hgrp]; simp
    · intro h hsome
      rw [buildDetailHierarchy, hgrp] at hsome
      simp only [List.isEmpty_cons, Bool.false_eq_true, if_false, Option.some.injEq] at hsome
      subst hsome
      have hne : locationNodes (r :: rest) ≠ [] := by
        rw [locationNodes]
        simp [uniqFirst, uniqAux]
      cases hln : locationNodes (r :: rest) with
      | nil => exact absurd hln hne
      | cons t ts =>
        have hsum : ((locationNodes (r :: rest)).map sumLeafCrashes).sum = (r :: rest).length :=
          sumLeafCrashes_locationNodes (r :: rest)
        rw [hln] at hsum
        rw [sumLeafCrashes, sumLeafCrashesF_eq, hsum]

/-- Witness for C5: cause "A" of the two-record scenario has one matching
    record and its detail hierarchy (root → location X → no-survivors
    bucket) has leaf counts summing to 1; cause "C" matches nothing and
    yields NotFound. -/
theorem buildDetailHierarchy_spec_witness :
    (buildDetailHierarchy [⟨2000, "A", "X", 5, "No"⟩, ⟨2000, "B", "Y", 0, "Yes"⟩] "A"
        = some (HTree.mk "Root" 0 0 [HTree.mk "X" 0 0 [HTree.mk "No" 1 5 []]])) ∧
    sumLeafCrashes (HTree.mk "Root" 0 0 [HTree.mk "X" 0 0 [HTree.mk "No" 1 5 []]])
      = (([⟨2000, "A", "X", 5, "No"⟩, ⟨2000, "B", "Y", 0, "Yes"⟩] : List Record).filter
          (fun r => decide (r.cause = "A"))).length ∧
    buildDetailHierarchy [⟨2000, "A", "X", 5, "No"⟩, ⟨2000, "B", "Y", 0, "Yes"⟩] "C" = none := by
  refine ⟨rfl, ?_, ?_⟩
  · exact (buildDetailHierarchy_spec
      [⟨2000, "A", "X", 5, "No"⟩, ⟨2000, "B", "Y", 0, "Yes"⟩] "A").2
      (HTree.mk "Root" 0 0 [HTree.mk "X" 0 0 [HTree.mk "No" 1 5 []]]) rfl
  · exact ((buildDetailHierarchy_spec
      [⟨2000, "A", "X", 5, "No"⟩, ⟨2000, "B", "Y", 0, "Yes"⟩] "C").1).mpr rfl

/-! Tooltip placement (identical logic in Treemap lines 54-63 and
    StackedAreaChart lines 318-327).  `px`, `py` are the pointer position
    relative to the chart (`event.clientX - svgRect.left` etc.), `tw`, `th`
    the tooltip size, `w` the chart width (the clamping viewport). -/

/-- `let x = px + 10; let y = py - th - 10; if (x + tw > w) x = px - tw - 10;
    if (y < 0) y = py + 10`. -/
def placeTooltip (px py tw th w : ℚ) : ℚ × ℚ :=
  let x := px + 10
  let y := py - th - 10
  (if x + tw > w then px - tw - 10 else x, if y < 0 then py + 10 else y)

/-- C6: the tooltip defaults to up-right of the pointer by the fixed margin
    10 (x = px + 10, y = py - th - 10); if that would overflow the right
    edge it flips to the left of the pointer, if it would overflow the top
    edge it flips below the pointer, the two flips evaluated independently
    (x never depends on py/th, y never on px/tw); concretely with chart
    width 1000 and tooltip width 200, pointer x = 950 flips left to
    x = 740 ≤ 800 while pointer x = 50 keeps the default x = 60. -/
theorem tooltip_placement_spec (px py tw th w : ℚ) :
    (px + 10 + tw > w → (placeTooltip px py tw th w).1 = px - tw - 10) ∧
    (¬ (px + 10 + tw > w) → (placeTooltip px py tw th w).1 = px + 10) ∧
    (py - th - 10 < 0 → (placeTooltip px py tw th w).2 = py + 10) ∧
    (¬ (py - th - 10 < 0) → (placeTooltip px py tw th w).2 = py - th - 10) ∧
    (∀ py' th', (placeTooltip px py tw th w).1 = (placeTooltip px py' tw th' w).1) ∧
    (∀ px' tw', (placeTooltip px py tw th w).2 = (placeTooltip px' py tw' th w).2) ∧
    ((placeTooltip 950 py 200 th 1000).1 = 740 ∧ (740 : ℚ) ≤ 800) ∧
    (placeTooltip 50 py 200 th 1000).1 = 50 + 10 := by
  refine ⟨?_, ?_, ?_, ?_, ?_, ?_, ⟨?_, by norm_num⟩, ?_⟩
  · intro h; simp only [placeTooltip, if_pos h]
  · intro h; simp only [placeTooltip, if_neg h]
  · intro h; simp only [placeTooltip, if_pos h]
  · intro h; simp only [placeTooltip, if_neg h]
  · intro py' th'; simp only [placeTooltip]
  · intro px' tw'; simp only [placeTooltip]
  · have h : (950 : ℚ) + 10 + 200 > 1000 := by norm_num
    simp only [placeTooltip, if_pos h]; norm_num
  · have h : ¬ ((50 : ℚ) + 10 + 200 > 1000) := by norm_num
    simp only [placeTooltip, if_neg h]

/-- Witness for C6 discharging the conditional branches at pointer
    (950, 5), tooltip 200 × 20, chart width 1000: the right-edge flip fires
    and the top-edge flip fires, both at their concrete values. -/
theorem tooltip_placement_spec_witness :
    ((950 : ℚ) + 10 + 200 > 1000 ∧ (placeTooltip 950 5 200 20 1000).1 = 950 - 200 - 10) ∧
    ((5 : ℚ) - 20 - 10 < 0 ∧ (placeTooltip 950 5 200 20 1000).2 = 5 + 10) := by
  refine ⟨⟨by norm_num, ?_⟩, ⟨by norm_num, ?_⟩⟩
  · exact (tooltip_placement_spec 950 5 200 20 1000).1 (by norm_num)
  · exact (tooltip_placement_spec 950 5 200 20 1000).2.2.1 (by norm_num)

/-! Color scale mapper.  Modelled from the spec: `d3.scaleSequential` with
    domain `[min, max]` (the extent of the leaf fatality values) maps a
    value to its normalized position by linear interpolation, and returns
    the fixed midpoint 0.5 whenever the domain is degenerate (min = max),
    so it never divides by zero.  Over ℚ the function is total, so no NaN
    and no error can arise. -/

/-- Normalized color position of `v` in domain `(min, max)`. -/
def colorFor (v : ℚ) (dom : ℚ × ℚ) : ℚ :=
  if dom.1 = dom.2 then 1 / 2 else (v - dom.1) / (dom.2 - dom.1)

/-- `d3.extent` over the leaf fatality values: the min/max pair, `none` for
    an empty leaf list. -/
def fatalityExtent (leaves : List ℚ) : Option (ℚ × ℚ) :=
  match leaves with
  | [] => none
  | v :: vs => some (vs.foldl (fun p x => (min p.1 x, max p.2 x)) (v, v))

/-- C8: `colorFor` linearly interpolates over the domain — for any value
    inside the domain the result lies in [0, 1] and satisfies the
    interpolation equation — and on every degenerate domain `[m, m]` it
    returns the fixed midpoint 1/2 for every value, never NaN and never an
    error (it is a total function on ℚ). -/
theorem colorFor_spec (v m M : ℚ) :
    (∀ x : ℚ, colorFor x (m, m) = 1 / 2) ∧
    (m ≤ v → v ≤ M → 0 ≤ colorFor v (m, M) ∧ colorFor v (m, M) ≤ 1) ∧
    (m ≠ M → colorFor v (m, M) * (M - m) = v - m) := by
  refine ⟨fun x => by simp [colorFor], ?_, ?_⟩
  · intro h1 h2
    by_cases hd : m = M
    · simp only [colorFor, hd, if_pos rfl]
      norm_num
    · have hlt : m < M := lt_of_le_of_ne (le_trans h1 h2) hd
      have hpos : 0 < M - m := by linarith
      simp only [colorFor, if_neg hd]
      constructor
      · exact div_nonneg (by linarith) (le_of_lt hpos)
      · rw [div_le_one hpos]; linarith
  · intro hd
    have hne : M - m ≠ 0 := fun h => hd (by linarith)
    simp only [colorFor, if_neg hd]
    exact div_mul_cancel₀ _ hne

/-- Witness for C8 at v = 3 in the domains (1, 5) and (4, 4). -/
theorem colorFor_spec_witness :
    ((1 : ℚ) ≤ 3 ∧ (3 : ℚ) ≤ 5) ∧
    (0 ≤ colorFor 3 (1, 5) ∧ colorFor 3 (1, 5) ≤ 1) ∧
    colorFor 7 (4, 4) = 1 / 2 := by
  refine ⟨⟨by norm_num, by norm_num⟩, ?_, ?_⟩
  · exact (colorFor_spec 3 1 5).2.1 (by norm_num) (by norm_num)
  · exact (colorFor_spec 7 4 4).1 7

/-! Decade hover intervals (StackedAreaChart lines 256-311).  The x-domain
    is `[minY, maxY]`, the min/max year of the data.  The ticks are
    `d3.range(Math.ceil(min / 10) * 10, max + 10, 10)`; d3.range(start,
    stop, step) — modelled from the spec, d3 not being part of this
    repository — produces `start + i * step` for `0 ≤ i < ceil((stop -
    start) / step)`.  The hover ranges are the consecutive tick pairs plus,
    when there is at least one tick, a final range from the last tick to the
    domain maximum.  On hover the decade totals filter the data
    inclusively: `d.year >= startYear && d.year <= endYear`. -/

/-- `Math.ceil(n / 10) * 10`: the least multiple of 10 that is ≥ n
    (Lean's `Int` division rounds toward negative infinity, so
    `(n + 9) / 10` is `⌈n / 10⌉`). -/
def ceilTen (n : Int) : Int := 10 * ((n + 9) / 10)

/-- How many ticks `d3.range(ceilTen minY, maxY + 10, 10)` produces. -/
def tickCount (minY maxY : Int) : ℕ := ((maxY + 10 - ceilTen minY).toNat + 9) / 10

/-- `k` values starting at `s`, stepping by 10 (the arithmetic progression
    that `d3.range` pushes). -/
def ticksAux : ℕ → Int → List Int
  | 0, _ => []
  | k + 1, s => s :: ticksAux k (s + 10)

/-- `decadeTicks = d3.range(Math.ceil(xMin / 10) * 10, xMax + 10, 10)`. -/
def decadeTicks (minY maxY : Int) : List Int :=
  ticksAux (tickCount minY maxY) (ceilTen minY)

/-- The hover ranges: each consecutive tick pair `(t_i, t_(i+1))`, then a
    final `(lastTick, xMax)` whenever there is at least one tick. -/
def decadeRanges (minY maxY : Int) : List (Int × Int) :=
  let ticks := decadeTicks minY maxY
  ticks.zip ticks.tail ++ (match ticks.getLast? with
    | some tl => [(tl, maxY)]
    | none => [])

/-- The consecutive tick pairs as a direct recursion (what `zip` with the
    tail of the tick progression amounts to). -/
def pairsAux : ℕ → Int → List (Int × Int)
  | 0, _ => []
  | 1, _ => []
  | k + 2, s => (s, s + 10) :: pairsAux (k + 1) (s + 10)

theorem zip_ticksAux : ∀ (k : ℕ) (s : Int),
    (ticksAux k s).zip (ticksAux k s).tail = pairsAux k s := by
  intro k
  induction k with
  | zero => intro s; simp [ticksAux, pairsAux]
  | succ k ih =>
    intro s
    cases k with
    | zero => simp [ticksAux, pairsAux]
    | succ k' =>
      have hthis := ih (s + 10)
      rw [show ticksAux (k' + 1) (s + 10) = (s + 10) :: ticksAux k' (s + 10 + 10) from rfl,
        List.tail_cons] at hthis
      rw [show ticksAux (k' + 1 + 1) s = s :: (s + 10) :: ticksAux k' (s + 10 + 10) from rfl,
        List.tail_cons, List.zip_cons_cons,
        show pairsAux (k' + 1 + 1) s = (s, s + 10) :: pairsAux (k' + 1) (s + 10) from rfl]
      exact congrArg _ hthis

theorem getLast?_ticksAux : ∀ (k : ℕ) (s : Int),
    (ticksAux (k + 1) s).getLast? = some (s + 10 * k) := by
  intro k
  induction k with
  | zero => intro s; simp [ticksAux]
  | succ k ih =>
    intro s
    rw [ticksAux, ticksAux, List.getLast?_cons_cons, ← ticksAux]
    rw [ih (s + 10)]
    congr 1
    push_cast
    omega

theorem mem_pairsAux_start : ∀ (k : ℕ) (s : Int) (r : Int × Int),
    r ∈ pairsAux k s → s ≤ r.1 := by
  intro k
  induction k with
  | zero => intro s r h; simp [pairsAux] at h
  | succ k ih =>
    intro s r h
    cases k with
    | zero => simp [pairsAux] at h
    | succ k' =>
      rw [pairsAux] at h
      rcases List.mem_cons.mp h with h | h
      · subst h; omega
      · have := ih (s + 10) r h
        omega

theorem mem_pairsAux_width : ∀ (k : ℕ) (s : Int) (r : Int × Int),
    r ∈ pairsAux k s → r.2 = r.1 + 10 := by
  intro k
  induction k with
  | zero => intro s r h; simp [pairsAux] at h
  | succ k ih =>
    intro s r h
    cases k with
    | zero => simp [pairsAux] at h
    | succ k' =>
      rw [pairsAux] at h
      rcases List.mem_cons.mp h with h | h
      · subst h; rfl
      · exact ih (s + 10) r h

theorem mem_pairsAux_dvd : ∀ (k : ℕ) (s : Int), 10 ∣ s → ∀ r : Int × Int,
    r ∈ pairsAux k s → 10 ∣ r.1 := by
  intro k
  induction k with
  | zero => intro s _ r h; simp [pairsAux] at h
  | succ k ih =>
    intro s hs r h
    cases k with
    | zero => simp [pairsAux] at h
    | succ k' =>
      rw [pairsAux] at h
      rcases List.mem_cons.mp h with h | h
      · subst h; exact hs
      · exact ih (s + 10) (by omega) r h

theorem chain_pairsAux : ∀ (k : ℕ) (s : Int),
    List.Chain' (fun a b : Int × Int => a.2 = b.1) (pairsAux k s) := by
  intro k
  induction k with
  | zero => intro s; simp [pairsAux]
  | succ k ih =>
    intro s
    cases k with
    | zero => simp [pairsAux]
    | succ k' =>
      cases k' with
      | zero => simp [pairsAux]
      | succ k'' =>
        rw [show pairsAux (k'' + 1 + 1 + 1) s
            = (s, s + 10) :: (s + 10, s + 10 + 10) :: pairsAux (k'' + 1) (s + 10 + 10) from rfl]
        refine List.chain'_cons.mpr ⟨rfl, ?_⟩
        have hch := ih (s + 10)
        rwa [show pairsAux (k'' + 1 + 1) (s + 10)
            = (s + 10, s + 10 + 10) :: pairsAux (k'' + 1) (s + 10 + 10) from rfl] at hch

theorem getLast?_pairsAux : ∀ (k : ℕ) (s : Int),
    (pairsAux (k + 2) s).getLast? = some (s + 10 * k, s + 10 * k + 10) := by
  intro k
  induction k with
  | zero => intro s; simp [pairsAux]
  | succ k ih =>
    intro s
    rw [show pairsAux (k + 1 + 2) s = (s, s + 10) :: pairsAux (k + 2) (s + 10) from rfl]
    conv_lhs => rw [show pairsAux (k + 2) (s + 10)
        = (s + 10, s + 10 + 10) :: pairsAux (k + 1) (s + 10 + 10) from rfl]
    rw [List.getLast?_cons_cons]
    rw [show ((s + 10, s + 10 + 10) :: pairsAux (k + 1) (s + 10 + 10) : List (Int × Int))
        = pairsAux (k + 2) (s + 10) from rfl]
    rw [ih (s + 10)]
    congr 1
    simp only [Prod.mk.injEq]
    push_cast
    constructor <;> omega

/-- Exactly one consecutive pair contains an x that is strictly inside the
    tick span and not itself a multiple of 10. -/
theorem pairsAux_filter_unique : ∀ (k : ℕ) (s x : Int), 10 ∣ s → ¬ (10 ∣ x) →
    s < x → x < s + 10 * ((k : Int) - 1) →
    ((pairsAux k s).filter (fun r => decide (r.1 ≤ x ∧ x ≤ r.2))).length = 1 := by
  intro k
  induction k with
  | zero => intro s x _ _ h1 h2; omega
  | succ k ih =>
    intro s x hs hx h1 h2
    cases k with
    | zero => omega
    | succ k' =>
      rw [pairsAux]
      have hxne : x ≠ s + 10 := by
        intro he; exact hx (by omega)
      by_cases hlt : x < s + 10
      · have hhead : (decide ((s, s + 10).1 ≤ x ∧ x ≤ (s, s + 10).2)) = true := by
          simp only [decide_eq_true_eq]; constructor <;> omega
        rw [List.filter_cons, hhead]
        have htail : (pairsAux (k' + 1) (s + 10)).filter
            (fun r => decide (r.1 ≤ x ∧ x ≤ r.2)) = [] := by
          rw [List.filter_eq_nil_iff]
          intro r hr
          have := mem_pairsAux_start (k' + 1) (s + 10) r hr
          simp only [decide_eq_true_eq]
          intro hcon
          omega
        rw [htail]
        rfl
      · have hgt : s + 10 < x := by omega
        have hhead : (decide ((s, s + 10).1 ≤ x ∧ x ≤ (s, s + 10).2)) = false := by
          simp only [decide_eq_false_iff_not]
          intro hcon
          omega
        rw [List.filter_cons, hhead]
        refine ih (s + 10) x (by omega) hx hgt ?_
        push_cast at h2 ⊢
        omega

theorem ceilTen_ge (n : Int) : n ≤ ceilTen n := by
  show n ≤ 10 * ((n + 9) / 10)
  omega

theorem ceilTen_le (n : Int) : ceilTen n ≤ n + 9 := by
  show 10 * ((n + 9) / 10) ≤ n + 9
  omega

theorem ceilTen_dvd (n : Int) : 10 ∣ ceilTen n := ⟨(n + 9) / 10, rfl⟩

theorem lastTick_bounds (minY maxY : Int) (h : minY ≤ maxY) :
    1 ≤ tickCount minY maxY ∧
    maxY ≤ ceilTen minY + 10 * ((tickCount minY maxY : Int) - 1) ∧
    ceilTen minY + 10 * ((tickCount minY maxY : Int) - 1) ≤ maxY + 9 := by
  have h1 := ceilTen_ge minY
  have h2 := ceilTen_le minY
  unfold tickCount
  omega

theorem decadeRanges_empty (minY maxY : Int) (h : tickCount minY maxY = 0) :
    decadeRanges minY maxY = [] := by
  simp [decadeRanges, decadeTicks, h, ticksAux]

theorem decadeRanges_eq (minY maxY : Int) (h : 1 ≤ tickCount minY maxY) :
    decadeRanges minY maxY
      = pairsAux (tickCount minY maxY) (ceilTen minY)
        ++ [(ceilTen minY + 10 * ((tickCount minY maxY : Int) - 1), maxY)] := by
  obtain ⟨k, hk⟩ : ∃ k, tickCount minY maxY = k + 1 :=
    ⟨tickCount minY maxY - 1, by omega⟩
  simp only [decadeRanges, decadeTicks, hk]
  rw [zip_ticksAux, getLast?_ticksAux]
  congr 2
  push_cast
  ring_nf

theorem decadeRanges_chain (minY maxY : Int) :
    List.Chain' (fun a b : Int × Int => a.2 = b.1) (decadeRanges minY maxY) := by
  by_cases h : 1 ≤ tickCount minY maxY
  · rw [decadeRanges_eq minY maxY h]
    refine List.Chain'.append (chain_pairsAux _ _) (List.chain'_singleton _) ?_
    intro x hx y hy
    simp only [List.head?_cons, Option.mem_def, Option.some.injEq] at hy
    rcases Nat.lt_or_ge (tickCount minY maxY) 2 with hm | hm
    · have hm1 : tickCount minY maxY = 1 := by omega
      rw [hm1] at hx
      simp [pairsAux] at hx
    · obtain ⟨k, hk⟩ : ∃ k, tickCount minY maxY = k + 2 :=
        ⟨tickCount minY maxY - 2, by omega⟩
      rw [hk] at hx
      rw [getLast?_pairsAux] at hx
      simp only [Option.mem_def, Option.some.injEq] at hx
      subst hy
      rw [← hx]
      show ceilTen minY + 10 * (k : Int) + 10 = ceilTen minY + 10 * ((tickCount minY maxY : Int) - 1)
      rw [hk]
      push_cast
      omega
  · rw [decadeRanges_empty minY maxY (by omega)]
    simp

theorem decadeRanges_width (minY maxY : Int) :
    ∀ r ∈ decadeRanges minY maxY, r.2 = r.1 + 10 ∨ r.2 = maxY := by
  intro r hr
  by_cases h : 1 ≤ tickCount minY maxY
  · rw [decadeRanges_eq minY maxY h] at hr
    rcases List.mem_append.mp hr with hr | hr
    · exact Or.inl (mem_pairsAux_width _ _ r hr)
    · rcases List.mem_singleton.mp hr with rfl
      exact Or.inr rfl
  · rw [decadeRanges_empty minY maxY (by omega)] at hr
    cases hr

theorem decadeRanges_dvd (minY maxY : Int) :
    ∀ r ∈ decadeRanges minY maxY, 10 ∣ r.1 := by
  intro r hr
  by_cases h : 1 ≤ tickCount minY maxY
  · rw [decadeRanges_eq minY maxY h] at hr
    rcases List.mem_append.mp hr with hr | hr
    · exact mem_pairsAux_dvd _ _ (ceilTen_dvd minY) r hr
    · rcases List.mem_singleton.mp hr with rfl
      obtain ⟨q, hq⟩ := ceilTen_dvd minY
      exact ⟨q + ((tickCount minY maxY : Int) - 1), by rw [hq]; push_cast; ring⟩
  · rw [decadeRanges_empty minY maxY (by omega)] at hr
    cases hr

/-- C7 counterexample: with data years spanning 1905 to 1920 the x-domain is
    [1905, 1920], but the hover ranges are [(1910, 1920), (1920, 1920)]: the
    in-domain pointer x = 1905 lies in no interval (the intervals do not
    span the x-domain down to the minimum year), and the in-domain pointer
    x = 1920 lies in two of them (the closed intervals are not pairwise
    disjoint), so a pointer inside the x-domain does not resolve to exactly
    one interval. -/
theorem decade_intervals_cex :
    ((1905 : Int) ≤ 1905 ∧ (1905 : Int) ≤ 1920 ∧ (1905 : Int) ≤ 1920) ∧
    decadeRanges 1905 1920 = [(1910, 1920), (1920, 1920)] ∧
    ((decadeRanges 1905 1920).filter
        (fun r => decide (r.1 ≤ (1905 : Int) ∧ (1905 : Int) ≤ r.2))).length = 0 ∧
    ((decadeRanges 1905 1920).filter
        (fun r => decide (r.1 ≤ (1920 : Int) ∧ (1920 : Int) ≤ r.2))).length = 2 := by
  decide

/-- C7 as amended: the decade hover intervals form a chain of abutting
    intervals (each interval's end is the next interval's start, so they
    overlap only at shared endpoints rather than being disjoint); they start
    at the first decade tick `ceil(min / 10) * 10` — not at the minimum
    year — and end at the data's maximum x; every interval start is a
    multiple of 10 and every interval is a fixed-width decade bucket except
    the final appended one, which runs from the last tick to the data's
    maximum x; the last tick is at least the maximum year, and every
    pointer x strictly inside the tick span that is not itself a decade
    boundary resolves to exactly one interval. -/
theorem decade_intervals_amended (minY maxY : Int) (h : minY ≤ maxY) :
    List.Chain' (fun a b : Int × Int => a.2 = b.1) (decadeRanges minY maxY) ∧
    (∃ r, (decadeRanges minY maxY).head? = some r ∧ r.1 = ceilTen minY) ∧
    (∃ r, (decadeRanges minY maxY).getLast? = some r ∧ r.2 = maxY) ∧
    (∀ r ∈ decadeRanges minY maxY, 10 ∣ r.1 ∧ (r.2 = r.1 + 10 ∨ r.2 = maxY)) ∧
    maxY ≤ ceilTen minY + 10 * ((tickCount minY maxY : Int) - 1) ∧
    (∀ x : Int, ¬ (10 ∣ x) → ceilTen minY < x →
        x < ceilTen minY + 10 * ((tickCount minY maxY : Int) - 1) →
        ((decadeRanges minY maxY).filter
          (fun r => decide (r.1 ≤ x ∧ x ≤ r.2))).length = 1) := by
  obtain ⟨hm1, hub, _⟩ := lastTick_bounds minY maxY h
  refine ⟨decadeRanges_chain minY maxY, ?_, ?_, ?_, hub, ?_⟩
  · rw [decadeRanges_eq minY maxY hm1]
    rcases Nat.lt_or_ge (tickCount minY maxY) 2 with hm | hm
    · have hm2 : tickCount minY maxY = 1 := by omega
      rw [hm2]
      refine ⟨(ceilTen minY + 10 * (((1 : ℕ) : Int) - 1), maxY), ?_, by push_cast; ring⟩
      simp [pairsAux]
    · obtain ⟨k, hk⟩ : ∃ k, tickCount minY maxY = k + 2 :=
        ⟨tickCount minY maxY - 2, by omega⟩
      rw [hk]
      refine ⟨(ceilTen minY, ceilTen minY + 10), ?_, rfl⟩
      rw [show pairsAux (k + 2) (ceilTen minY)
          = (ceilTen minY, ceilTen minY + 10) :: pairsAux (k + 1) (ceilTen minY + 10) from rfl]
      rfl
  · rw [decadeRanges_eq minY maxY hm1]
    refine ⟨(ceilTen minY + 10 * ((tickCount minY maxY : Int) - 1), maxY), ?_, rfl⟩
    rw [List.getLast?_append]
    rfl
  · intro r hr
    exact ⟨decadeRanges_dvd minY maxY r hr, decadeRanges_width minY maxY r hr⟩
  · intro x hx h1 h2
    rw [decadeRanges_eq minY maxY hm1, List.filter_append, List.length_append]
    have hpairs := pairsAux_filter_unique (tickCount minY maxY) (ceilTen minY) x
      (ceilTen_dvd minY) hx h1 h2
    have hlast : ([(ceilTen minY + 10 * ((tickCount minY maxY : Int) - 1), maxY)].filter
        (fun r => decide (r.1 ≤ x ∧ x ≤ r.2))) = [] := by
      rw [List.filter_eq_nil_iff]
      intro r hr
      rcases List.mem_singleton.mp hr with rfl
      simp only [decide_eq_true_eq]
      intro hcon
      omega
    rw [hpairs, hlast]
    rfl

/-- Witness for C7-as-amended at data years 1900 to 1920: three abutting
    intervals, last tick 1920 ≥ 1920, and pointer x = 1915 resolving to
    exactly one of them. -/
theorem decade_intervals_amended_witness :
    ((1900 : Int) ≤ 1920 ∧ ¬ ((10 : Int) ∣ 1915) ∧ ceilTen 1900 < 1915 ∧
      (1915 : Int) < ceilTen 1900 + 10 * ((tickCount 1900 1920 : Int) - 1)) ∧
    ((decadeRanges 1900 1920).filter
        (fun r => decide (r.1 ≤ (1915 : Int) ∧ (1915 : Int) ≤ r.2))).length = 1 := by
  refine ⟨⟨by norm_num, by decide, by decide, by decide⟩, ?_⟩
  exact (decade_intervals_amended 1900 1920 (by norm_num)).2.2.2.2.2 1915
    (by decide) (by decide) (by decide)

/-- C10: a record whose year equals the decade boundary shared by two
    adjacent hover intervals is counted by the inclusive filters
    (`d.year >= startYear && d.year <= endYear`) of both intervals, so both
    per-decade tooltip totals include it. -/
theorem decade_boundary_inclusive (minY maxY : Int) (i : ℕ) (r1 r2 : Int × Int)
    (h1 : (decadeRanges minY maxY)[i]? = some r1)
    (h2 : (decadeRanges minY maxY)[i + 1]? = some r2)
    (pts : List StackPoint) (pt : StackPoint) (hmem : pt ∈ pts)
    (hy : pt.year = r1.2) (hmax : pt.year ≤ maxY) :
    pt ∈ pts.filter (fun q => decide (r1.1 ≤ q.year ∧ q.year ≤ r1.2)) ∧
    pt ∈ pts.filter (fun q => decide (r2.1 ≤ q.year ∧ q.year ≤ r2.2)) := by
  have hlen2 : i + 1 < (decadeRanges minY maxY).length := by
    rcases List.getElem?_eq_some_iff.mp h2 with ⟨hl, _⟩
    exact hl
  have hlen1 : i < (decadeRanges minY maxY).length := by omega
  have hget1 : (decadeRanges minY maxY)[i] = r1 := by
    rcases List.getElem?_eq_some_iff.mp h1 with ⟨_, he⟩
    exact he
  have hget2 : (decadeRanges minY maxY)[i + 1] = r2 := by
    rcases List.getElem?_eq_some_iff.mp h2 with ⟨_, he⟩
    exact he
  have hchain : r1.2 = r2.1 := by
    have hc := (List.chain'_iff_get.mp (decadeRanges_chain minY maxY)) i (by omega)
    simp only [List.get_eq_getElem] at hc
    rw [hget1, hget2] at hc
    exact hc
  have hr2mem : r2 ∈ decadeRanges minY maxY :=
    hget2 ▸ List.getElem_mem hlen2
  have hb : 1 ≤ tickCount minY maxY := by
    by_contra hb0
    have h0 : tickCount minY maxY = 0 := by omega
    rw [decadeRanges_empty minY maxY h0] at hlen1
    simp at hlen1
  have hr1w : r1.2 = r1.1 + 10 := by
    have hlp : i < (pairsAux (tickCount minY maxY) (ceilTen minY)).length := by
      have hl := hlen2
      rw [decadeRanges_eq minY maxY hb, List.length_append, List.length_singleton] at hl
      omega
    have h1' := h1
    rw [decadeRanges_eq minY maxY hb, List.getElem?_append_left hlp] at h1'
    have hr1pairs : r1 ∈ pairsAux (tickCount minY maxY) (ceilTen minY) := by
      rcases List.getElem?_eq_some_iff.mp h1' with ⟨hl, he⟩
      exact he ▸ List.getElem_mem hl
    exact mem_pairsAux_width _ _ r1 hr1pairs
  have hr2w := decadeRanges_width minY maxY r2 hr2mem
  constructor
  · refine List.mem_filter.mpr ⟨hmem, ?_⟩
    simp only [decide_eq_true_eq]
    omega
  · refine List.mem_filter.mpr ⟨hmem, ?_⟩
    simp only [decide_eq_true_eq]
    rcases hr2w with hw | hw <;> omega

/-- Witness for C10 with years 1900-1920: the boundary 1910 shared by the
    adjacent intervals (1900, 1910) and (1910, 1920) is included by both
    inclusive filters. -/
theorem decade_boundary_inclusive_witness :
    ((decadeRanges 1900 1920)[0]? = some (1900, 1910) ∧
      (decadeRanges 1900 1920)[1]? = some (1910, 1920)) ∧
    ((⟨1910, []⟩ : StackPoint) ∈
        ([⟨1910, []⟩] : List StackPoint).filter
          (fun q => decide ((1900 : Int) ≤ q.year ∧ q.year ≤ 1910)) ∧
      (⟨1910, []⟩ : StackPoint) ∈
        ([⟨1910, []⟩] : List StackPoint).filter
          (fun q => decide ((1910 : Int) ≤ q.year ∧ q.year ≤ 1920))) := by
  refine ⟨⟨by decide, by decide⟩, ?_⟩
  exact decade_boundary_inclusive 1900 1920 0 (1900, 1910) (1910, 1920)
    (by decide) (by decide) [⟨1910, []⟩] ⟨1910, []⟩ (by decide) rfl (by decide)

/-! Sorting before layout (Treemap lines 13-15).  `d3.hierarchy(data).sum(d
    => d.crashes || 0)` computes each node's `value` as its own crashes plus
    the values of its children (modelled from the d3 documentation, d3 not
    being part of this repository), and `.sort((a, b) => b.value - a.value)`
    sorts the children of every node by that value, descending, with the JS
    stable sort. -/

mutual
/-- Modelled from the spec: the `value` computed by `.sum(d => d.crashes ||
    0)` — own crashes plus the sum over children. -/
def hvalue : HTree → ℕ
  | .mk _ c _ cs => c + sumVal cs
def sumVal : List HTree → ℕ
  | [] => 0
  | t :: ts => hvalue t + sumVal ts
end

mutual
/-- Modelled from the spec: `.sort((a, b) => b.value - a.value)` applied to
    the children of every node, a stable descending-by-value sort. -/
def sortTree : HTree → HTree
  | .mk n c f cs =>
    .mk n c f (List.insertionSort (fun a b => hvalue b ≤ hvalue a) (sortForest cs))
def sortForest : List HTree → List HTree
  | [] => []
  | t :: ts => sortTree t :: sortForest ts
end

mutual
/-- All nodes of a hierarchy (the node itself and, recursively, the nodes of
    its children). -/
def subtreesH : HTree → List HTree
  | .mk n c f cs => .mk n c f cs :: subtreesF cs
def subtreesF : List HTree → List HTree
  | [] => []
  | t :: ts => subtreesH t ++ subtreesF ts
end

theorem sortForest_eq_map (l : List HTree) : sortForest l = l.map sortTree := by
  induction l with
  | nil => rfl
  | cons t ts ih => rw [sortForest, ih, List.map_cons]

theorem mem_subtreesF (s : HTree) :
    ∀ l : List HTree, s ∈ subtreesF l ↔ ∃ c ∈ l, s ∈ subtreesH c := by
  intro l
  induction l with
  | nil => simp [subtreesF]
  | cons t ts ih =>
    rw [subtreesF, List.mem_append, ih]
    constructor
    · rintro (h | ⟨c, hc, hs⟩)
      · exact ⟨t, List.mem_cons_self t ts, h⟩
      · exact ⟨c, List.mem_cons_of_mem t hc, hs⟩
    · rintro ⟨c, hc, hs⟩
      rcases List.mem_cons.mp hc with hc | hc
      · subst hc; exact Or.inl hs
      · exact Or.inr ⟨c, hc, hs⟩

/-- C9 counterexample: the source sorts children only by `(a, b) => b.value
    - a.value`; with two equal-value children named "B" then "A" the stable
    sort keeps the original order ["B", "A"], so ties are not broken by
    name (names ordered lexicographically over their characters; a name
    tie-break would have produced ["A", "B"]). -/
theorem sort_ties_not_by_name_cex :
    hvalue (HTree.mk "B" 1 0 []) = hvalue (HTree.mk "A" 1 0 []) ∧
    ((sortTree (HTree.mk "Root" 0 0 [HTree.mk "B" 1 0 [], HTree.mk "A" 1 0 []])).children.map
        HTree.name = ["B", "A"]) ∧
    ¬ List.Sorted
        (fun a b : HTree => hvalue b < hvalue a ∨
          (hvalue a = hvalue b ∧ (a.name.data < b.name.data ∨ a.name = b.name)))
        (sortTree (HTree.mk "Root" 0 0 [HTree.mk "B" 1 0 [], HTree.mk "A" 1 0 []])).children := by
  refine ⟨rfl, by decide, by decide⟩

/-- C9 as amended: before layout the children of every hierarchy node are
    sorted by value descending, with ties retaining their original input
    order (the sort is stable: for each value, the children carrying that
    value appear exactly in their original order), so layouts are
    deterministic and identical across re-renders of the same input — the
    sort being a pure function of the hierarchy. -/
theorem sort_children_amended (t : HTree) :
    (∀ s ∈ subtreesH (sortTree t),
        List.Sorted (fun a b : HTree => hvalue b ≤ hvalue a) s.children) ∧
    (∀ (n : String) (c f : ℕ) (cs : List HTree) (k : ℕ),
        (sortTree (HTree.mk n c f cs)).children.filter (fun x => decide (hvalue x = k))
          = (cs.map sortTree).filter (fun x => decide (hvalue x = k))) := by
  constructor
  · induction t using HTree.indOn with
    | _ n c f cs ih =>
      intro s hs
      rw [sortTree] at hs
      rw [subtreesH] at hs
      rcases List.mem_cons.mp hs with hs | hs
      · subst hs
        show List.Sorted _ (HTree.children (HTree.mk n c f _))
        rw [HTree.children]
        haveI : IsTotal HTree (fun a b => hvalue b ≤ hvalue a) :=
          ⟨fun a b => le_total (hvalue b) (hvalue a)⟩
        haveI : IsTrans HTree (fun a b => hvalue b ≤ hvalue a) :=
          ⟨fun _ _ _ h1 h2 => le_trans h2 h1⟩
        exact List.sorted_insertionSort _ _
      · rcases (mem_subtreesF s _).mp hs with ⟨c', hc', hsc⟩
        have hc'' : c' ∈ sortForest cs :=
          ((List.perm_insertionSort _ _).mem_iff).mp hc'
        rw [sortForest_eq_map] at hc''
        rcases List.mem_map.mp hc'' with ⟨c₀, hc₀, rfl⟩
        exact ih c₀ hc₀ s hsc
  · intro n c f cs k
    show (HTree.children (HTree.mk n c f _)).filter _ = _
    rw [HTree.children, ← sortForest_eq_map]
    exact insertionSort_filter_key hvalue (sortForest cs) k

/-- Witness for C9-as-amended: the root of the sorted two-child hierarchy
    has its children sorted by value descending, values 2 then 1. -/
theorem sort_children_amended_witness :
    List.Sorted (fun a b : HTree => hvalue b ≤ hvalue a)
      (sortTree (HTree.mk "Root" 0 0 [HTree.mk "A" 1 0 [], HTree.mk "B" 2 0 []])).children ∧
    ((sortTree (HTree.mk "Root" 0 0 [HTree.mk "A" 1 0 [], HTree.mk "B" 2 0 []])).children.map
        HTree.name = ["B", "A"]) := by
  constructor
  · exact (sort_children_amended
      (HTree.mk "Root" 0 0 [HTree.mk "A" 1 0 [], HTree.mk "B" 2 0 []])).1
      _ (List.mem_cons_self _ _)
  · decide

/-! Treemap layout engine.  Modelled from the spec: `d3.treemap().size([w,
    h]).padding(2)` is not part of this repository; the spec describes the
    layout as a recursive weighted split of the current rectangle along its
    longer axis: with children `c_1..c_n` of total weight `W`, each child
    receives, out of the available length (the axis length minus `(n-1)`
    paddings), the fraction `value(c_i) / W`, siblings being separated by
    exactly `padding`; a node whose children's total weight is zero is
    treated as having no children.  Coordinates are exact rationals; the
    `.round(true)` integer-rounding pass is not modelled, so the tiling
    identities below are exact, which is within the one-unit-per-edge
    rounding tolerance the spec allows. -/

structure Rect where
  x0 : ℚ
  y0 : ℚ
  x1 : ℚ
  y1 : ℚ
deriving DecidableEq, Repr

def Rect.area (r : Rect) : ℚ := (r.x1 - r.x0) * (r.y1 - r.y0)

/-- Lower edge of a rectangle along an axis (`true` is the x-axis). -/
def Rect.lo (ax : Bool) (r : Rect) : ℚ := if ax then r.x0 else r.y0

/-- Upper edge of a rectangle along an axis. -/
def Rect.hi (ax : Bool) (r : Rect) : ℚ := if ax then r.x1 else r.y1

/-- The sub-rectangle spanning `[lo, hi]` along axis `ax` and all of `r`
    along the other axis. -/
def axRect (ax : Bool) (lo hi : ℚ) (r : Rect) : Rect :=
  if ax then ⟨lo, r.y0, hi, r.y1⟩ else ⟨r.x0, lo, r.x1, hi⟩

/-- The rectangle has a nonempty open interior. -/
def Rect.hasInterior (r : Rect) : Prop := r.x0 < r.x1 ∧ r.y0 < r.y1

/-- `q` lies inside `r`. -/
def Rect.inside (q r : Rect) : Prop :=
  r.x0 ≤ q.x0 ∧ q.x1 ≤ r.x1 ∧ r.y0 ≤ q.y0 ∧ q.y1 ≤ r.y1

/-- The open interiors of the two rectangles intersect. -/
def Rect.overlap (a b : Rect) : Prop :=
  max a.x0 b.x0 < min a.x1 b.x1 ∧ max a.y0 b.y0 < min a.y1 b.y1

/-- The split axis of a rectangle: split along x exactly when the width is
    at least the height (the longer axis). -/
def splitAxis (r : Rect) : Bool := decide (r.y1 - r.y0 ≤ r.x1 - r.x0)

theorem axRect_lo (ax : Bool) (lo hi : ℚ) (r : Rect) :
    (axRect ax lo hi r).lo ax = lo := by
  cases ax <;> simp [axRect, Rect.lo]

theorem axRect_hi (ax : Bool) (lo hi : ℚ) (r : Rect) :
    (axRect ax lo hi r).hi ax = hi := by
  cases ax <;> simp [axRect, Rect.hi]

theorem axRect_lo_other (ax : Bool) (lo hi : ℚ) (r : Rect) :
    (axRect ax lo hi r).lo (!ax) = r.lo (!ax) := by
  cases ax <;> simp [axRect, Rect.lo]

theorem axRect_hi_other (ax : Bool) (lo hi : ℚ) (r : Rect) :
    (axRect ax lo hi r).hi (!ax) = r.hi (!ax) := by
  cases ax <;> simp [axRect, Rect.hi]

theorem area_axRect (ax : Bool) (lo hi : ℚ) (r : Rect) :
    (axRect ax lo hi r).area = (hi - lo) * (r.hi (!ax) - r.lo (!ax)) := by
  cases ax <;> simp [axRect, Rect.area, Rect.hi, Rect.lo] <;> ring

theorem area_by_axes (ax : Bool) (r : Rect) :
    r.area = (r.hi ax - r.lo ax) * (r.hi (!ax) - r.lo (!ax)) := by
  cases ax <;> simp [Rect.area, Rect.hi, Rect.lo] <;> ring

theorem inside_iff (q r : Rect) :
    q.inside r ↔ ∀ ax, r.lo ax ≤ q.lo ax ∧ q.hi ax ≤ r.hi ax := by
  simp only [Rect.inside, Bool.forall_bool, Rect.lo, Rect.hi]
  simp only [if_true, if_false, Bool.cond_true]
  constructor
  · rintro ⟨h1, h2, h3, h4⟩; exact ⟨⟨h3, h4⟩, h1, h2⟩
  · rintro ⟨⟨h3, h4⟩, h1, h2⟩; exact ⟨h1, h2, h3, h4⟩

theorem hasInterior_iff (r : Rect) :
    r.hasInterior ↔ ∀ ax, r.lo ax < r.hi ax := by
  simp only [Rect.hasInterior, Bool.forall_bool, Rect.lo, Rect.hi]
  simp only [if_true, if_false]
  tauto

theorem overlap_iff (a b : Rect) :
    a.overlap b ↔ ∀ ax, max (a.lo ax) (b.lo ax) < min (a.hi ax) (b.hi ax) := by
  simp only [Rect.overlap, Bool.forall_bool, Rect.lo, Rect.hi]
  simp only [if_true, if_false]
  tauto

theorem not_hasInterior_of_axis {r : Rect} (ax : Bool) (h : r.hi ax ≤ r.lo ax) :
    ¬ r.hasInterior :=
  fun hint => absurd ((hasInterior_iff r).mp hint ax) (not_lt.mpr h)

theorem overlap_hasInterior {a b : Rect} (h : a.overlap b) :
    a.hasInterior ∧ b.hasInterior := by
  obtain ⟨h1, h2⟩ := h
  refine ⟨⟨?_, ?_⟩, ⟨?_, ?_⟩⟩
  · exact lt_of_le_of_lt (le_max_left _ _) (lt_of_lt_of_le h1 (min_le_left _ _))
  · exact lt_of_le_of_lt (le_max_left _ _) (lt_of_lt_of_le h2 (min_le_left _ _))
  · exact lt_of_le_of_lt (le_max_right _ _) (lt_of_lt_of_le h1 (min_le_right _ _))
  · exact lt_of_le_of_lt (le_max_right _ _) (lt_of_lt_of_le h2 (min_le_right _ _))

theorem pairwise_no_overlap_of_empty {l : List Rect}
    (h : ∀ q ∈ l, ¬ q.hasInterior) :
    List.Pairwise (fun a b : Rect => ¬ a.overlap b) l := by
  induction l with
  | nil => exact List.Pairwise.nil
  | cons q l ih =>
    refine List.pairwise_cons.mpr ⟨?_, ih (fun x hx => h x (List.mem_cons_of_mem q hx))⟩
    intro b _ hov
    exact h q (List.mem_cons_self q l) (overlap_hasInterior hov).1

/-- The node tree produced by the layout: the hierarchy node data plus the
    computed `value` and the allocated rectangle. -/
inductive LTree where
  | mk (name : String) (crashes fatalities val : ℕ) (rect : Rect) (children : List LTree)
deriving Repr

def LTree.rect : LTree → Rect
  | .mk _ _ _ _ r _ => r

def LTree.val : LTree → ℕ
  | .mk _ _ _ v _ _ => v

def LTree.crashes : LTree → ℕ
  | .mk _ c _ _ _ _ => c

def LTree.children : LTree → List LTree
  | .mk _ _ _ _ _ cs => cs

mutual
/-- Modelled from the spec: the recursive treemap layout.  At a node whose
    children have total weight `W ≠ 0`, the rectangle is split along its
    longer axis; the children are placed sequentially from the low edge,
    each receiving `value/W` of the available length (axis length minus
    `(n-1)` paddings) and separated from the next sibling by `padding`;
    a node with `W = 0` is treated as having no children. -/
def layout (p : ℚ) : HTree → Rect → LTree
  | .mk n c f cs, r =>
    if sumVal cs = 0 then .mk n c f (hvalue (.mk n c f cs)) r []
    else
      .mk n c f (hvalue (.mk n c f cs)) r
        (layoutRow p (sumVal cs : ℚ)
          ((r.hi (splitAxis r) - r.lo (splitAxis r)) - ((cs.length : ℚ) - 1) * p)
          (splitAxis r) r cs (r.lo (splitAxis r)))
def layoutRow (p W avail : ℚ) (ax : Bool) (r : Rect) : List HTree → ℚ → List LTree
  | [], _ => []
  | t :: ts, cur =>
    layout p t (axRect ax cur (cur + (hvalue t : ℚ) / W * avail) r)
      :: layoutRow p W avail ax r ts (cur + (hvalue t : ℚ) / W * avail + p)
end

mutual
/-- The total inter-sibling padding area of the layout of `t` in `r`: at
    each node with laid-out children, the `(n-1)` padding strips of width
    `p` spanning the cross axis, plus the padding areas inside the
    children. -/
def padArea (p : ℚ) : HTree → Rect → ℚ
  | .mk _ _ _ cs, r =>
    if sumVal cs = 0 then 0
    else
      ((cs.length : ℚ) - 1) * p * (r.hi (!splitAxis r) - r.lo (!splitAxis r))
        + padRow p (sumVal cs : ℚ)
          ((r.hi (splitAxis r) - r.lo (splitAxis r)) - ((cs.length : ℚ) - 1) * p)
          (splitAxis r) r cs (r.lo (splitAxis r))
def padRow (p W avail : ℚ) (ax : Bool) (r : Rect) : List HTree → ℚ → ℚ
  | [], _ => 0
  | t :: ts, cur =>
    padArea p t (axRect ax cur (cur + (hvalue t : ℚ) / W * avail) r)
      + padRow p W avail ax r ts (cur + (hvalue t : ℚ) / W * avail + p)
end

mutual
/-- The rectangles of the leaves of a laid-out tree. -/
def leafRects : LTree → List Rect
  | .mk _ _ _ _ r [] => [r]
  | .mk _ _ _ _ _ (t :: ts) => leafRectsF (t :: ts)
def leafRectsF : List LTree → List Rect
  | [] => []
  | t :: ts => leafRects t ++ leafRectsF ts
end

mutual
/-- All nodes of a laid-out tree. -/
def subtreesL : LTree → List LTree
  | .mk n c f v r cs => .mk n c f v r cs :: subtreesLF cs
def subtreesLF : List LTree → List LTree
  | [] => []
  | t :: ts => subtreesL t ++ subtreesLF ts
end

def sumAreas (l : List Rect) : ℚ := (l.map Rect.area).sum

def sumValL (l : List LTree) : ℕ := (l.map LTree.val).sum

theorem sumAreas_append (l1 l2 : List Rect) :
    sumAreas (l1 ++ l2) = sumAreas l1 + sumAreas l2 := by
  simp [sumAreas]

theorem layout_rect (p : ℚ) (t : HTree) (r : Rect) : (layout p t r).rect = r := by
  cases t with
  | mk n c f cs =>
    rw [layout]
    by_cases h : sumVal cs = 0
    · rw [if_pos h]; rfl
    · rw [if_neg h]; rfl

theorem layout_val (p : ℚ) (t : HTree) (r : Rect) : (layout p t r).val = hvalue t := by
  cases t with
  | mk n c f cs =>
    rw [layout]
    by_cases h : sumVal cs = 0
    · rw [if_pos h]; rfl
    · rw [if_neg h]; rfl

theorem layoutRow_length (p W avail : ℚ) (ax : Bool) (r : Rect) :
    ∀ (ts : List HTree) (cur : ℚ), (layoutRow p W avail ax r ts cur).length = ts.length := by
  intro ts
  induction ts with
  | nil => intro cur; rfl
  | cons t ts ih => intro cur; rw [layoutRow, List.length_cons, List.length_cons, ih]

theorem sumValL_layoutRow (p W avail : ℚ) (ax : Bool) (r : Rect) :
    ∀ (ts : List HTree) (cur : ℚ),
      sumValL (layoutRow p W avail ax r ts cur) = sumVal ts := by
  intro ts
  induction ts with
  | nil => intro cur; rfl
  | cons t ts ih =>
    intro cur
    rw [layoutRow, sumVal]
    show (layout _ _ _).val + sumValL (layoutRow p W avail ax r ts _) = _
    rw [layout_val, ih]

theorem mem_layoutRow (p W avail : ℚ) (ax : Bool) (r : Rect) :
    ∀ (ts : List HTree) (cur : ℚ) (c : LTree), c ∈ layoutRow p W avail ax r ts cur →
      ∃ t₀ ∈ ts, ∃ cur' : ℚ,
        c = layout p t₀ (axRect ax cur' (cur' + (hvalue t₀ : ℚ) / W * avail) r) := by
  intro ts
  induction ts with
  | nil => intro cur c hc; simp [layoutRow] at hc
  | cons t ts ih =>
    intro cur c hc
    rw [layoutRow] at hc
    rcases List.mem_cons.mp hc with hc | hc
    · exact ⟨t, List.mem_cons_self t ts, cur, hc⟩
    · rcases ih _ c hc with ⟨t₀, ht₀, cur', he⟩
      exact ⟨t₀, List.mem_cons_of_mem t ht₀, cur', he⟩

theorem leafRects_node (n : String) (c f v : ℕ) (r : Rect) (l : List LTree)
    (h : l ≠ []) : leafRects (LTree.mk n c f v r l) = leafRectsF l := by
  cases l with
  | nil => exact absurd rfl h
  | cons t ts => rw [leafRects]

theorem mem_subtreesLF (s : LTree) :
    ∀ l : List LTree, s ∈ subtreesLF l ↔ ∃ c ∈ l, s ∈ subtreesL c := by
  intro l
  induction l with
  | nil => simp [subtreesLF]
  | cons t ts ih =>
    rw [subtreesLF, List.mem_append, ih]
    constructor
    · rintro (h | ⟨c, hc, hs⟩)
      · exact ⟨t, List.mem_cons_self t ts, h⟩
      · exact ⟨c, List.mem_cons_of_mem t hc, hs⟩
    · rintro ⟨c, hc, hs⟩
      rcases List.mem_cons.mp hc with hc | hc
      · subst hc; exact Or.inl hs
      · exact Or.inr ⟨c, hc, hs⟩

/-- The per-child accounting of one row: leaf areas plus padding areas of
    the children of a node add up to the weighted fraction of the available
    area the row covers. -/
theorem area_accounting_row (p W avail : ℚ) (ax : Bool) (r : Rect) :
    ∀ ts : List HTree,
      (∀ t ∈ ts, ∀ r' : Rect,
        sumAreas (leafRects (layout p t r')) + padArea p t r' = r'.area) →
      ∀ cur : ℚ,
        sumAreas (leafRectsF (layoutRow p W avail ax r ts cur))
            + padRow p W avail ax r ts cur
          = (sumVal ts : ℚ) / W * avail * (r.hi (!ax) - r.lo (!ax)) := by
  intro ts
  induction ts with
  | nil =>
    intro _ cur
    rw [layoutRow, padRow, leafRectsF]
    show sumAreas [] + 0 = (sumVal [] : ℚ) / W * avail * _
    rw [sumVal]
    simp [sumAreas]
  | cons t ts ih =>
    intro hIH cur
    rw [layoutRow, padRow, leafRectsF, sumAreas_append]
    have hchild := hIH t (List.mem_cons_self t ts)
      (axRect ax cur (cur + (hvalue t : ℚ) / W * avail) r)
    rw [area_axRect] at hchild
    have htail := ih (fun t' ht' => hIH t' (List.mem_cons_of_mem t ht'))
      (cur + (hvalue t : ℚ) / W * avail + p)
    rw [sumVal]
    push_cast
    linear_combination hchild + htail

/-- Exact area accounting of the layout: the leaf areas plus the total
    inter-sibling padding area add up exactly to the area of the bounding
    rectangle. -/
theorem area_accounting (p : ℚ) : ∀ (t : HTree) (r : Rect),
    sumAreas (leafRects (layout p t r)) + padArea p t r = r.area := by
  intro t
  induction t using HTree.indOn with
  | _ n c f cs ih =>
    intro r
    by_cases h0 : sumVal cs = 0
    · rw [layout, if_pos h0, padArea, if_pos h0, leafRects]
      simp [sumAreas]
    · cases cs with
      | nil => exact absurd rfl h0
      | cons t0 ts0 =>
        rw [layout, if_neg h0, padArea, if_neg h0]
        rw [leafRects_node _ _ _ _ _ _ (by rw [layoutRow]; exact List.cons_ne_nil _ _)]
        have hrow := area_accounting_row p (sumVal (t0 :: ts0) : ℚ)
          ((r.hi (splitAxis r) - r.lo (splitAxis r)) - (((t0 :: ts0).length : ℚ) - 1) * p)
          (splitAxis r) r (t0 :: ts0)
          (fun t' ht' r' => ih t' ht' r') (r.lo (splitAxis r))
        rw [div_self (by exact_mod_cast h0 : (sumVal (t0 :: ts0) : ℚ) ≠ 0)] at hrow
        rw [area_by_axes (splitAxis r) r]
        linear_combination hrow

/-- A rectangle with empty interior is degenerate along the axis that the
    split leaves untouched in its children. -/
theorem cross_empty {r : Rect} (hr : ¬ r.hasInterior) :
    r.hi (!splitAxis r) ≤ r.lo (!splitAxis r) := by
  by_cases hax : r.y1 - r.y0 ≤ r.x1 - r.x0
  · have hsa : splitAxis r = true := decide_eq_true hax
    rw [hsa]
    show r.y1 ≤ r.y0
    rcases not_and_or.mp hr with h | h
    · have := not_lt.mp h
      linarith
    · exact not_lt.mp h
  · have hsa : splitAxis r = false := by
      simp only [splitAxis, decide_eq_false_iff_not]
      exact hax
    rw [hsa]
    show r.x1 ≤ r.x0
    rcases not_and_or.mp hr with h | h
    · exact not_lt.mp h
    · have := not_lt.mp h
      linarith

/-- A row laid out inside a rectangle that is degenerate along the cross
    axis produces only interior-empty leaves. -/
theorem row_leaves_empty_cross (p W avail : ℚ) (ax : Bool) (r : Rect)
    (hcross : r.hi (!ax) ≤ r.lo (!ax)) :
    ∀ ts : List HTree,
      (∀ t ∈ ts, ∀ r' : Rect, ¬ r'.hasInterior →
        ∀ q ∈ leafRects (layout p t r'), ¬ q.hasInterior) →
      ∀ (cur : ℚ) (q : Rect),
        q ∈ leafRectsF (layoutRow p W avail ax r ts cur) → ¬ q.hasInterior := by
  intro ts
  induction ts with
  | nil =>
    intro _ cur q hq
    rw [layoutRow, leafRectsF] at hq
    exact absurd hq (List.not_mem_nil q)
  | cons t ts ih =>
    intro hIH cur q hq
    rw [layoutRow, leafRectsF] at hq
    rcases List.mem_append.mp hq with hq | hq
    · refine hIH t (List.mem_cons_self t ts) _ ?_ q hq
      refine not_hasInterior_of_axis (!ax) ?_
      rw [axRect_hi_other, axRect_lo_other]
      exact hcross
    · exact ih (fun t' ht' => hIH t' (List.mem_cons_of_mem t ht')) _ q hq

/-- Every leaf of the layout of a tree inside an interior-empty rectangle is
    itself interior-empty: the degenerate axis is inherited all the way
    down. -/
theorem leaf_empty_of_empty (p : ℚ) : ∀ (t : HTree) (r : Rect), ¬ r.hasInterior →
    ∀ q ∈ leafRects (layout p t r), ¬ q.hasInterior := by
  intro t
  induction t using HTree.indOn with
  | _ n c f cs ih =>
    intro r hr q hq
    by_cases h0 : sumVal cs = 0
    · rw [layout, if_pos h0, leafRects] at hq
      rcases List.mem_singleton.mp hq with rfl
      exact hr
    · cases cs with
      | nil => exact absurd rfl h0
      | cons t0 ts0 =>
        rw [layout, if_neg h0] at hq
        rw [leafRects_node _ _ _ _ _ _ (by rw [layoutRow]; exact List.cons_ne_nil _ _)] at hq
        exact row_leaves_empty_cross p _ _ (splitAxis r) r (cross_empty hr) (t0 :: ts0)
          (fun t' ht' r' hr' q' hq' => ih t' ht' r' hr' q' hq') _ q hq

/-- A row laid out with nonpositive available length produces only
    interior-empty leaves (every child is allotted a nonpositive length). -/
theorem row_leaves_empty_avail (p W avail : ℚ) (hW : 0 < W) (hav : avail ≤ 0)
    (ax : Bool) (r : Rect) :
    ∀ (ts : List HTree) (cur : ℚ) (q : Rect),
      q ∈ leafRectsF (layoutRow p W avail ax r ts cur) → ¬ q.hasInterior := by
  intro ts
  induction ts with
  | nil =>
    intro cur q hq
    rw [layoutRow, leafRectsF] at hq
    exact absurd hq (List.not_mem_nil q)
  | cons t ts ih =>
    intro cur q hq
    rw [layoutRow, leafRectsF] at hq
    rcases List.mem_append.mp hq with hq | hq
    · refine leaf_empty_of_empty p t _ ?_ q hq
      refine not_hasInterior_of_axis ax ?_
      rw [axRect_hi, axRect_lo]
      have h1 : 0 ≤ (hvalue t : ℚ) / W := div_nonneg (Nat.cast_nonneg _) (le_of_lt hW)
      nlinarith
    · exact ih _ q hq

/-- The length, padding included, that a row of children occupies along the
    split axis. -/
def spanP (W avail p : ℚ) : List HTree → ℚ
  | [] => 0
  | t :: ts => ((hvalue t : ℚ) / W * avail + p) + spanP W avail p ts

theorem spanP_eq (W avail p : ℚ) : ∀ ts : List HTree,
    spanP W avail p ts = (sumVal ts : ℚ) / W * avail + (ts.length : ℚ) * p := by
  intro ts
  induction ts with
  | nil =>
    rw [spanP, sumVal]
    push_cast
    simp
  | cons t ts ih =>
    rw [spanP, ih, sumVal, List.length_cons]
    push_cast
    ring

theorem spanP_nonneg (W avail p : ℚ) (hW : 0 < W) (hav : 0 ≤ avail) (hp : 0 ≤ p) :
    ∀ ts : List HTree, 0 ≤ spanP W avail p ts := by
  intro ts
  induction ts with
  | nil => rw [spanP]
  | cons t ts ih =>
    rw [spanP]
    have h1 : 0 ≤ (hvalue t : ℚ) / W := div_nonneg (Nat.cast_nonneg _) (le_of_lt hW)
    have h2 : 0 ≤ (hvalue t : ℚ) / W * avail := mul_nonneg h1 hav
    linarith

/-- Geometry of one laid-out row: every interior-nonempty leaf stays inside
    the strip `[cur, cur + span - p]` along the split axis and inside the
    parent along the cross axis, and the leaves are pairwise
    non-overlapping. -/
theorem row_geometry (p W avail : ℚ) (hp : 0 ≤ p) (hW : 0 < W) (hav : 0 ≤ avail)
    (ax : Bool) (r : Rect) :
    ∀ ts : List HTree,
      (∀ t ∈ ts, ∀ r' : Rect,
        (∀ q ∈ leafRects (layout p t r'), q.hasInterior → q.inside r') ∧
        List.Pairwise (fun a b : Rect => ¬ a.overlap b) (leafRects (layout p t r'))) →
      ∀ cur : ℚ,
        (∀ q ∈ leafRectsF (layoutRow p W avail ax r ts cur), q.hasInterior →
          cur ≤ q.lo ax ∧ q.hi ax ≤ cur + spanP W avail p ts - p ∧
          r.lo (!ax) ≤ q.lo (!ax) ∧ q.hi (!ax) ≤ r.hi (!ax)) ∧
        List.Pairwise (fun a b : Rect => ¬ a.overlap b)
          (leafRectsF (layoutRow p W avail ax r ts cur)) := by
  intro ts
  induction ts with
  | nil =>
    intro _ cur
    constructor
    · intro q hq
      rw [layoutRow, leafRectsF] at hq
      exact absurd hq (List.not_mem_nil q)
    · rw [layoutRow, leafRectsF]
      exact List.Pairwise.nil
  | cons t ts ih =>
    intro hIH cur
    have hlen0 : 0 ≤ (hvalue t : ℚ) / W * avail :=
      mul_nonneg (div_nonneg (Nat.cast_nonneg _) (le_of_lt hW)) hav
    have hspan0 : 0 ≤ spanP W avail p ts := spanP_nonneg W avail p hW hav hp ts
    have hchild := hIH t (List.mem_cons_self t ts)
      (axRect ax cur (cur + (hvalue t : ℚ) / W * avail) r)
    have htail := ih (fun t' ht' => hIH t' (List.mem_cons_of_mem t ht'))
      (cur + (hvalue t : ℚ) / W * avail + p)
    constructor
    · intro q hq hqint
      rw [layoutRow, leafRectsF] at hq
      rcases List.mem_append.mp hq with hq | hq
      · have hins := hchild.1 q hq hqint
        have h1 := (inside_iff q _).mp hins ax
        have h2 := (inside_iff q _).mp hins (!ax)
        rw [axRect_lo, axRect_hi] at h1
        rw [axRect_lo_other, axRect_hi_other] at h2
        refine ⟨h1.1, ?_, h2.1, h2.2⟩
        rw [spanP]
        linarith [h1.2]
      · have hb := htail.1 q hq hqint
        refine ⟨?_, ?_, hb.2.2.1, hb.2.2.2⟩
        · linarith [hb.1]
        · rw [spanP]
          linarith [hb.2.1]
    · rw [layoutRow, leafRectsF, List.pairwise_append]
      refine ⟨hchild.2, htail.2, ?_⟩
      intro q1 hq1 q2 hq2 hov
      have hints := overlap_hasInterior hov
      have hq1in := hchild.1 q1 hq1 hints.1
      have hq2b := htail.1 q2 hq2 hints.2
      have h1 := (inside_iff q1 _).mp hq1in ax
      rw [axRect_lo, axRect_hi] at h1
      have hovax := (overlap_iff q1 q2).mp hov ax
      have hmax := le_max_right (q1.lo ax) (q2.lo ax)
      have hmin := min_le_left (q1.hi ax) (q2.hi ax)
      linarith [h1.2, hq2b.1]

/-- Geometry of the whole layout: every interior-nonempty leaf rectangle
    lies inside the bounding rectangle, and the leaf rectangles are
    pairwise non-overlapping. -/
theorem layout_geometry (p : ℚ) (hp : 0 ≤ p) : ∀ (t : HTree) (r : Rect),
    (∀ q ∈ leafRects (layout p t r), q.hasInterior → q.inside r) ∧
    List.Pairwise (fun a b : Rect => ¬ a.overlap b) (leafRects (layout p t r)) := by
  intro t
  induction t using HTree.indOn with
  | _ n c f cs ih =>
    intro r
    by_cases h0 : sumVal cs = 0
    · rw [layout, if_pos h0, leafRects]
      constructor
      · intro q hq _
        rcases List.mem_singleton.mp hq with rfl
        exact ⟨le_refl _, le_refl _, le_refl _, le_refl _⟩
      · simp
    · cases cs with
      | nil => exact absurd rfl h0
      | cons t0 ts0 =>
        have hW : (0 : ℚ) < (sumVal (t0 :: ts0) : ℚ) := by
          exact_mod_cast Nat.pos_of_ne_zero h0
        rw [layout, if_neg h0]
        rw [leafRects_node _ _ _ _ _ _ (by rw [layoutRow]; exact List.cons_ne_nil _ _)]
        by_cases hav : 0 ≤ r.hi (splitAxis r) - r.lo (splitAxis r)
            - (((t0 :: ts0).length : ℚ) - 1) * p
        · have hrow := row_geometry p (sumVal (t0 :: ts0) : ℚ)
            (r.hi (splitAxis r) - r.lo (splitAxis r) - (((t0 :: ts0).length : ℚ) - 1) * p)
            hp hW hav (splitAxis r) r (t0 :: ts0)
            (fun t' ht' r' => ih t' ht' r') (r.lo (splitAxis r))
          refine ⟨?_, hrow.2⟩
          intro q hq hqint
          have hb := hrow.1 q hq hqint
          have hspan : spanP (sumVal (t0 :: ts0) : ℚ)
              (r.hi (splitAxis r) - r.lo (splitAxis r) - (((t0 :: ts0).length : ℚ) - 1) * p)
              p (t0 :: ts0)
              = (r.hi (splitAxis r) - r.lo (splitAxis r)
                  - (((t0 :: ts0).length : ℚ) - 1) * p)
                + ((t0 :: ts0).length : ℚ) * p := by
            rw [spanP_eq, div_self (ne_of_gt hW), one_mul]
          rw [hspan] at hb
          rw [inside_iff]
          intro b
          by_cases hbax : b = splitAxis r
          · subst hbax
            exact ⟨hb.1, by linarith [hb.2.1]⟩
          · have hbax' : b = !splitAxis r := by
              cases b <;> cases hsa : splitAxis r <;> simp_all
            subst hbax'
            exact ⟨hb.2.2.1, hb.2.2.2⟩
        · push_neg at hav
          have hempty := row_leaves_empty_avail p (sumVal (t0 :: ts0) : ℚ)
            (r.hi (splitAxis r) - r.lo (splitAxis r) - (((t0 :: ts0).length : ℚ) - 1) * p)
            hW (le_of_lt hav) (splitAxis r) r (t0 :: ts0) (r.lo (splitAxis r))
          constructor
          · intro q hq hqint
            exact absurd hqint (hempty q hq)
          · exact pairwise_no_overlap_of_empty hempty

/-- C1: for every hierarchy root, bounding rectangle R and padding p ≥ 0,
    the leaf rectangles produced by the treemap layout partition R
    accounting for padding: no two leaf rectangles overlap, and the sum of
    the leaf areas plus the total inter-sibling padding area equals the
    area of R — exactly, over the unrounded rational layout, hence within
    the integer rounding tolerance of one unit per edge. -/
theorem treemap_leaves_tile (t : HTree) (r : Rect) (p : ℚ) (hp : 0 ≤ p) :
    List.Pairwise (fun a b : Rect => ¬ a.overlap b) (leafRects (layout p t r)) ∧
    sumAreas (leafRects (layout p t r)) + padArea p t r = r.area :=
  ⟨(layout_geometry p hp t r).2, area_accounting p t r⟩

/-- Witness for C1: a two-cause hierarchy laid out in a 100 × 60 rectangle
    with padding 2. -/
theorem treemap_leaves_tile_witness :
    (0 : ℚ) ≤ 2 ∧
    (List.Pairwise (fun a b : Rect => ¬ a.overlap b)
        (leafRects (layout 2
          (HTree.mk "Root" 0 0
            [HTree.mk "A" 0 0 [HTree.mk "No" 3 10 [], HTree.mk "Yes" 1 0 []],
             HTree.mk "B" 0 0 [HTree.mk "No" 2 4 []]])
          ⟨0, 0, 100, 60⟩)) ∧
      sumAreas (leafRects (layout 2
          (HTree.mk "Root" 0 0
            [HTree.mk "A" 0 0 [HTree.mk "No" 3 10 [], HTree.mk "Yes" 1 0 []],
             HTree.mk "B" 0 0 [HTree.mk "No" 2 4 []]])
          ⟨0, 0, 100, 60⟩))
        + padArea 2
          (HTree.mk "Root" 0 0
            [HTree.mk "A" 0 0 [HTree.mk "No" 3 10 [], HTree.mk "Yes" 1 0 []],
             HTree.mk "B" 0 0 [HTree.mk "No" 2 4 []]])
          ⟨0, 0, 100, 60⟩
        = Rect.area ⟨0, 0, 100, 60⟩) :=
  ⟨by norm_num, treemap_leaves_tile _ _ 2 (by norm_num)⟩

/-- The available length along the split axis of `r` when `n` children are
    separated by `(n - 1)` paddings. -/
def availLen (r : Rect) (n : ℕ) (p : ℚ) : ℚ :=
  (r.hi (splitAxis r) - r.lo (splitAxis r)) - ((n : ℚ) - 1) * p

/-- The extent of `r` along the axis the split leaves whole. -/
def crossLen (r : Rect) : ℚ := r.hi (!splitAxis r) - r.lo (!splitAxis r)

/-- The length of `q` along the split axis of `r`. -/
def axisLen (r q : Rect) : ℚ := q.hi (splitAxis r) - q.lo (splitAxis r)

/-- C2: the treemap layout is a recursive weighted split along the longer
    axis: at every node of the output with children, the node's value is
    its own count plus the children's total weight W (so W = value(parent)
    for the aggregated hierarchies, whose internal nodes carry no own
    count), and every child's length along the split axis satisfies
    len·W = value(child)·avail — i.e. the child receives value(child)/W of
    the available length (axis length minus (n-1) paddings) — and its area
    satisfies area·W = value(child)·(avail·cross): exactly value(child)/W
    of the available area, which is within one rounding unit of the
    proportional share. -/
theorem treemap_split_proportional (t : HTree) (r : Rect) (p : ℚ) :
    ∀ s ∈ subtreesL (layout p t r),
      ((s.val : ℚ) = (s.crashes : ℚ) + (sumValL s.children : ℚ)) ∧
      ∀ c ∈ s.children,
        axisLen s.rect c.rect * (sumValL s.children : ℚ)
            = (c.val : ℚ) * availLen s.rect s.children.length p ∧
        c.rect.area * (sumValL s.children : ℚ)
            = (c.val : ℚ) * (availLen s.rect s.children.length p * crossLen s.rect) ∧
        ((sumValL s.children : ℚ) ≠ 0 →
          axisLen s.rect c.rect
            = (c.val : ℚ) / (sumValL s.children : ℚ)
              * availLen s.rect s.children.length p) := by
  induction t using HTree.indOn generalizing r with
  | _ n c f cs ih =>
    intro s hs
    by_cases h0 : sumVal cs = 0
    · rw [layout, if_pos h0, subtreesL] at hs
      rcases List.mem_cons.mp hs with rfl | hs'
      · constructor
        · show (hvalue (HTree.mk n c f cs) : ℚ) = _
          rw [hvalue, h0]
          show ((c + 0 : ℕ) : ℚ) = (c : ℚ) + (sumValL [] : ℚ)
          rw [sumValL]
          push_cast
          simp
        · intro c' hc'
          rw [LTree.children] at hc'
          exact absurd hc' (List.not_mem_nil c')
      · rw [subtreesLF] at hs'
        exact absurd hs' (List.not_mem_nil s)
    · cases cs with
      | nil => exact absurd rfl h0
      | cons t0 ts0 =>
        have hWne : (sumVal (t0 :: ts0) : ℚ) ≠ 0 := by exact_mod_cast h0
        rw [layout, if_neg h0, subtreesL] at hs
        rcases List.mem_cons.mp hs with rfl | hs'
        · constructor
          · show (hvalue (HTree.mk n c f (t0 :: ts0)) : ℚ) = _
            rw [hvalue]
            show ((c + sumVal (t0 :: ts0) : ℕ) : ℚ)
              = (c : ℚ) + (sumValL (layoutRow _ _ _ _ _ _ _) : ℚ)
            rw [sumValL_layoutRow]
            push_cast
            ring
          · intro c' hc'
            rw [LTree.children] at hc'
            obtain ⟨t₀, ht₀, cur', rfl⟩ := mem_layoutRow _ _ _ _ _ _ _ _ hc'
            have hrect : (layout p t₀
                (axRect (splitAxis r) cur'
                  (cur' + (hvalue t₀ : ℚ) / (sumVal (t0 :: ts0) : ℚ)
                    * (r.hi (splitAxis r) - r.lo (splitAxis r)
                        - (((t0 :: ts0).length : ℚ) - 1) * p)) r)).rect
              = axRect (splitAxis r) cur'
                  (cur' + (hvalue t₀ : ℚ) / (sumVal (t0 :: ts0) : ℚ)
                    * (r.hi (splitAxis r) - r.lo (splitAxis r)
                        - (((t0 :: ts0).length : ℚ) - 1) * p)) r := layout_rect _ _ _
            rw [hrect, layout_val]
            show axisLen (LTree.rect (LTree.mk n c f _ r _)) _ * _ = _ ∧ _
            rw [LTree.rect, LTree.children, sumValL_layoutRow, layoutRow_length]
            rw [axisLen, axRect_hi, axRect_lo, area_axRect]
            rw [availLen, crossLen]
            refine ⟨?_, ?_, ?_⟩
            · field_simp
              ring
            · field_simp
              ring
            · intro _
              ring
        · rcases (mem_subtreesLF s _).mp hs' with ⟨c', hc', hsc⟩
          obtain ⟨t₀, ht₀, cur', rfl⟩ := mem_layoutRow _ _ _ _ _ _ _ _ hc'
          exact ih t₀ ht₀ _ s hsc

/-- Witness for C2: the root of a two-leaf hierarchy of equal weights laid
    out in a 10 × 4 rectangle with padding 2; the first child spans
    [0, 4] × [0, 4], half of the available length 8 and of the available
    area 32. -/
theorem treemap_split_proportional_witness :
    ((layout 2 (HTree.mk "Root" 0 0 [HTree.mk "A" 1 0 [], HTree.mk "B" 1 0 []]) ⟨0, 0, 10, 4⟩
        ∈ subtreesL (layout 2
          (HTree.mk "Root" 0 0 [HTree.mk "A" 1 0 [], HTree.mk "B" 1 0 []]) ⟨0, 0, 10, 4⟩)) ∧
      LTree.mk "A" 1 0 1 ⟨0, 0, 4, 4⟩ [] ∈
        (layout 2 (HTree.mk "Root" 0 0 [HTree.mk "A" 1 0 [], HTree.mk "B" 1 0 []])
          ⟨0, 0, 10, 4⟩).children) ∧
    axisLen
        (layout 2 (HTree.mk "Root" 0 0 [HTree.mk "A" 1 0 [], HTree.mk "B" 1 0 []])
          ⟨0, 0, 10, 4⟩).rect
        (LTree.mk "A" 1 0 1 ⟨0, 0, 4, 4⟩ []).rect
      * (sumValL (layout 2 (HTree.mk "Root" 0 0 [HTree.mk "A" 1 0 [], HTree.mk "B" 1 0 []])
          ⟨0, 0, 10, 4⟩).children : ℚ)
      = ((LTree.mk "A" 1 0 1 ⟨0, 0, 4, 4⟩ []).val : ℚ)
        * availLen
          (layout 2 (HTree.mk "Root" 0 0 [HTree.mk "A" 1 0 [], HTree.mk "B" 1 0 []])
            ⟨0, 0, 10, 4⟩).rect
          (layout 2 (HTree.mk "Root" 0 0 [HTree.mk "A" 1 0 [], HTree.mk "B" 1 0 []])
            ⟨0, 0, 10, 4⟩).children.length 2 := by
  have hch : (layout 2 (HTree.mk "Root" 0 0 [HTree.mk "A" 1 0 [], HTree.mk "B" 1 0 []])
      ⟨0, 0, 10, 4⟩).children
      = [LTree.mk "A" 1 0 1 ⟨0, 0, 4, 4⟩ [], LTree.mk "B" 1 0 1 ⟨6, 0, 10, 4⟩ []] := by
    simp only [layout, layoutRow]
    norm_num [splitAxis, Rect.lo, Rect.hi, axRect, hvalue, sumVal, LTree.children]
  refine ⟨⟨List.mem_cons_self _ _, ?_⟩, ?_⟩
  · rw [hch]
    exact List.mem_cons_self _ _
  · exact (((treemap_split_proportional
        (HTree.mk "Root" 0 0 [HTree.mk "A" 1 0 [], HTree.mk "B" 1 0 []]) ⟨0, 0, 10, 4⟩ 2)
        (layout 2 (HTree.mk "Root" 0 0 [HTree.mk "A" 1 0 [], HTree.mk "B" 1 0 []])
          ⟨0, 0, 10, 4⟩)
        (List.mem_cons_self _ _)).2
      (LTree.mk "A" 1 0 1 ⟨0, 0, 4, 4⟩ [])
      (by rw [hch]; exact List.mem_cons_self _ _)).1

end Crash
